import Mathlib

/-!
Verification of the intrusive doubly-linked list (IntrusiveList) against its
specification. Nodes live in an addressable heap modelled as a total function
from addresses (Nat) to node records. The link primitive (NodeBase) is not
part of the published sources, so its three operations are modelled from the
specification text; the hook (IntrusiveListNode) and the container
(IntrusiveList) operations are translated from the header sources.
-/

namespace Intrusive

/-- A node record: the two ring pointers of NodeBase plus the linked-state
flag of IntrusiveListNode. Null pointers are modelled as address 0. -/
@[ext]
structure Node where
  prev : Nat
  next : Nat
  linked : Bool
deriving DecidableEq

/-- A freshly constructed node: prev and next are null, is_linked_ is false. -/
def Node.init : Node := ⟨0, 0, false⟩

/-- The heap of node records, addressed by Nat. -/
def Heap : Type := Nat → Node

/-- Write the next field of the node at address a. -/
def setNext (h : Heap) (a v : Nat) : Heap :=
  fun y => if y = a then { h y with next := v } else h y

/-- Write the prev field of the node at address a. -/
def setPrev (h : Heap) (a v : Nat) : Heap :=
  fun y => if y = a then { h y with prev := v } else h y

/-- Write the linked flag of the node at address a. -/
def setLinked (h : Heap) (a : Nat) (v : Bool) : Heap :=
  fun y => if y = a then { h y with linked := v } else h y

@[simp] theorem setNext_prev (h : Heap) (a v y : Nat) :
    (setNext h a v y).prev = (h y).prev := by
  simp only [setNext]; split <;> rfl

@[simp] theorem setNext_linked (h : Heap) (a v y : Nat) :
    (setNext h a v y).linked = (h y).linked := by
  simp only [setNext]; split <;> rfl

@[simp] theorem setPrev_next (h : Heap) (a v y : Nat) :
    (setPrev h a v y).next = (h y).next := by
  simp only [setPrev]; split <;> rfl

@[simp] theorem setPrev_linked (h : Heap) (a v y : Nat) :
    (setPrev h a v y).linked = (h y).linked := by
  simp only [setPrev]; split <;> rfl

@[simp] theorem setLinked_next (h : Heap) (a : Nat) (v : Bool) (y : Nat) :
    (setLinked h a v y).next = (h y).next := by
  simp only [setLinked]; split <;> rfl

@[simp] theorem setLinked_prev (h : Heap) (a : Nat) (v : Bool) (y : Nat) :
    (setLinked h a v y).prev = (h y).prev := by
  simp only [setLinked]; split <;> rfl

theorem setNext_next (h : Heap) (a v y : Nat) :
    (setNext h a v y).next = if y = a then v else (h y).next := by
  simp only [setNext]; split <;> rfl

theorem setPrev_prev (h : Heap) (a v y : Nat) :
    (setPrev h a v y).prev = if y = a then v else (h y).prev := by
  simp only [setPrev]; split <;> rfl

theorem setLinked_linked (h : Heap) (a : Nat) (v : Bool) (y : Nat) :
    (setLinked h a v y).linked = if y = a then v else (h y).linked := by
  simp only [setLinked]; split <;> rfl

/-! ### The link primitive (NodeBase) -/

/-- Modelled from the spec: NodeBase link_between_base, missing from the
published sources. Splices self between two linked records a and b:
sets self.prev = a, self.next = b, a.next = self, b.prev = self. -/
def link_between_base (h : Heap) (self a b : Nat) : Heap :=
  setPrev (setNext (setNext (setPrev h self a) self b) a self) b self

/-- Modelled from the spec: NodeBase unlink_base, missing from the published
sources. Given current prev and next of self, sets prev.next = next and
next.prev = prev. -/
def unlink_base (h : Heap) (self : Nat) : Heap :=
  setPrev (setNext h (h self).prev (h self).next) (h self).next (h self).prev

/-- Modelled from the spec: NodeBase transfer_range, missing from the
published sources. Detaches the contiguous run from first up to but not
including last from its ring (closing the gap behind it) and reinserts it, in
the same relative order, immediately before pos: the neighbors of the run are
joined, then the head and tail of the run are retargeted to the new
neighbors around pos. -/
def transfer_range (h : Heap) (pos first last : Nat) : Heap :=
  let tail := (h last).prev
  let before := (h first).prev
  let anchor := (h pos).prev
  setPrev (setNext (setPrev (setNext (setPrev (setNext h before last)
    last before) anchor first) first anchor) tail pos) pos tail

/-! ### The hook layer (IntrusiveListNode, from node.hpp) -/

/-- IntrusiveListNode is_linked: reads the flag. -/
def is_linked (h : Heap) (self : Nat) : Bool := (h self).linked

/-- IntrusiveListNode unlink: detaches from the ring via the link primitive
and flips the state to unlinked. The source asserts is_linked_ first; the
assertion is a precondition, expressed as a hypothesis of the theorems. -/
def unlink (h : Heap) (self : Nat) : Heap :=
  setLinked (unlink_base h self) self false

/-- IntrusiveListNode link_between: delegates to the link primitive, then
marks the node linked. -/
def link_between (h : Heap) (self a b : Nat) : Heap :=
  setLinked (link_between_base h self a b) self true

/-- IntrusiveListNode destructor: if the node is still linked it warns on
stderr (in debug builds) and unlinks. Returns the new heap together with a
flag recording whether the warning diagnostic fired. -/
def node_destructor (h : Heap) (self : Nat) : Heap × Bool :=
  if (h self).linked then (unlink h self, true) else (h, false)

/-! Field-level descriptions of the composite updates. -/

theorem unlink_next (h : Heap) (x y : Nat) :
    (unlink h x y).next =
      if y = (h x).prev then (h x).next else (h y).next := by
  simp only [unlink, unlink_base, setLinked_next, setPrev_next, setNext_next]

theorem unlink_prev (h : Heap) (x y : Nat) :
    (unlink h x y).prev =
      if y = (h x).next then (h x).prev else (h y).prev := by
  simp only [unlink, unlink_base, setLinked_prev, setPrev_prev, setNext_prev]

theorem unlink_linked (h : Heap) (x y : Nat) :
    (unlink h x y).linked = if y = x then false else (h y).linked := by
  simp only [unlink, unlink_base, setLinked_linked, setPrev_linked,
    setNext_linked]

theorem link_between_next (h : Heap) (self a b y : Nat) :
    (link_between h self a b y).next =
      if y = a then self else if y = self then b else (h y).next := by
  simp only [link_between, link_between_base, setLinked_next, setPrev_next,
    setNext_next]

theorem link_between_prev (h : Heap) (self a b y : Nat) :
    (link_between h self a b y).prev =
      if y = b then self else if y = self then a else (h y).prev := by
  simp only [link_between, link_between_base, setLinked_prev, setPrev_prev,
    setNext_prev]

theorem link_between_linked (h : Heap) (self a b y : Nat) :
    (link_between h self a b y).linked =
      if y = self then true else (h y).linked := by
  simp only [link_between, link_between_base, setLinked_linked,
    setPrev_linked, setNext_linked]

theorem transfer_range_next (h : Heap) (pos first last y : Nat) :
    (transfer_range h pos first last y).next =
      if y = (h last).prev then pos
      else if y = (h pos).prev then first
      else if y = (h first).prev then last
      else (h y).next := by
  simp only [transfer_range, setPrev_next, setNext_next]

theorem transfer_range_prev (h : Heap) (pos first last y : Nat) :
    (transfer_range h pos first last y).prev =
      if y = pos then (h last).prev
      else if y = first then (h pos).prev
      else if y = last then (h first).prev
      else (h y).prev := by
  simp only [transfer_range, setNext_prev, setPrev_prev]

theorem transfer_range_linked (h : Heap) (pos first last y : Nat) :
    (transfer_range h pos first last y).linked = (h y).linked := by
  simp only [transfer_range, setNext_linked, setPrev_linked]

/-! ### The container layer (IntrusiveList, from node.hpp)

A list is identified by the address of its sentinel node. Iterators are bare
node addresses (the base pointer of ListIterator); the end iterator of a
list is its sentinel address, increment follows the next field, decrement
follows the prev field. -/

/-- IntrusiveList init_sentinel: point the sentinel at itself. -/
def init_sentinel (h : Heap) (s : Nat) : Heap :=
  setPrev (setNext h s s) s s

/-- IntrusiveList empty: sentinel.next compared with the sentinel itself. -/
def emptyList (h : Heap) (s : Nat) : Bool := (h s).next = s

/-- IntrusiveList begin: the node after the sentinel. -/
def beginIt (h : Heap) (s : Nat) : Nat := (h s).next

/-- IntrusiveList insert_after: asserts the element is unlinked, then links
it between after and after.next. -/
def insert_after (h : Heap) (after : Nat) (node : Nat) : Heap :=
  link_between h node after (h after).next

/-- IntrusiveList insert_before: asserts the element is unlinked, then links
it between before.prev and before. -/
def insert_before (h : Heap) (before : Nat) (node : Nat) : Heap :=
  link_between h node (h before).prev before

/-- IntrusiveList push_back: insert_before the sentinel. -/
def push_back (h : Heap) (s : Nat) (element : Nat) : Heap :=
  insert_before h s element

/-- IntrusiveList push_front: insert_after the sentinel. -/
def push_front (h : Heap) (s : Nat) (element : Nat) : Heap :=
  insert_after h s element

/-- IntrusiveList insert: insert_before the position, returning an iterator
to the inserted element. -/
def insert (h : Heap) (pos : Nat) (element : Nat) : Heap × Nat :=
  (insert_before h pos element, element)

/-- IntrusiveList pop_front: unlink the first element. Precondition
(asserted in the source): the list is non-empty. -/
def pop_front (h : Heap) (s : Nat) : Heap :=
  unlink h (h s).next

/-- IntrusiveList pop_back: unlink the last element. Precondition (asserted
in the source): the list is non-empty. -/
def pop_back (h : Heap) (s : Nat) : Heap :=
  unlink h (h s).prev

/-- IntrusiveList erase: unlink the element at pos and return an iterator to
the element that followed it. Precondition (asserted): pos is not end. -/
def erase (h : Heap) (pos : Nat) : Heap × Nat :=
  (unlink h pos, (h pos).next)

/-- IntrusiveList erase_range: erase elements one by one from first until
the iterator reaches last, then return last. The while loop of the source is
modelled with explicit fuel; any fuel at least the range length is enough. -/
def erase_range (h : Heap) (first last : Nat) : Nat → Heap × Nat
  | 0 => (h, last)
  | fuel + 1 =>
    if first = last then (h, last)
    else
      let step := erase h first
      erase_range step.1 step.2 last fuel

/-- IntrusiveList clear: pop_front until empty. The while loop is modelled
with explicit fuel; any fuel at least the list length is enough. -/
def clear (h : Heap) (s : Nat) : Nat → Heap
  | 0 => h
  | fuel + 1 =>
    if emptyList h s then h else clear (pop_front h s) s fuel

/-- IntrusiveList splice_range: transfer the range from first up to but not
including last out of the other list to just before pos. -/
def splice_range (h : Heap) (pos first last : Nat) : Heap :=
  transfer_range h pos first last

/-- IntrusiveList splice: transfer all elements of the other list (sentinel
otherS) to just before pos in this list (sentinel thisS). Returns the heap
unchanged when the other list is empty or when the other list is this same
list. -/
def splice (h : Heap) (pos : Nat) (thisS otherS : Nat) : Heap :=
  if emptyList h otherS then h
  else if thisS = otherS then h
  else splice_range h pos (beginIt h otherS) otherS

/-- IntrusiveList splice_cell: transfer the single element at the given
iterator of the other list to just before pos. Returns the heap unchanged
when the iterator is the end of the other list. -/
def splice_cell (h : Heap) (pos : Nat) (otherS element : Nat) : Heap :=
  if element = otherS then h
  else splice_range h pos element ((h element).next)

/-- IntrusiveList try_pop_front: null result on an empty list, otherwise a
pointer to the first element, which is popped. -/
def try_pop_front (h : Heap) (s : Nat) : Heap × Option Nat :=
  if emptyList h s then (h, none)
  else ((pop_front h s), some ((h s).next))

/-- IntrusiveList try_pop_back: null result on an empty list, otherwise a
pointer to the last element, which is popped. -/
def try_pop_back (h : Heap) (s : Nat) : Heap × Option Nat :=
  if emptyList h s then (h, none)
  else ((pop_back h s), some ((h s).prev))

/-- The iterator walk of extract_front: starting from the iterator split,
advance while the iterator has not reached end (the sentinel s) and the
count is still below the budget. Returns the final iterator and the count of
steps taken. The count bound makes the budget itself the fuel. -/
def extract_walk (h : Heap) (s : Nat) : Nat → Nat → Nat × Nat
  | split, 0 => (split, 0)
  | split, budget + 1 =>
    if split = s then (split, 0)
    else
      let rest := extract_walk h s ((h split).next) budget
      (rest.1, rest.2 + 1)

/-- IntrusiveList extract_front: walk forward from begin up to max_cnt
steps to find the split point, then transfer the leading run to the tail of
the out list (sentinel outS); returns the count of elements moved. -/
def extract_front (h : Heap) (s outS : Nat) (max_cnt : Nat) : Heap × Nat :=
  let walk := extract_walk h s (beginIt h s) max_cnt
  if 0 < walk.2 then
    (splice_range h outS (beginIt h s) walk.1, walk.2)
  else (h, walk.2)

/-- IntrusiveList remove (static): unlink the element if it is linked,
otherwise do nothing. -/
def remove (h : Heap) (element : Nat) : Heap :=
  if (h element).linked then unlink h element else h

/-! ### Representation predicates

A list with sentinel s and elements xs (in forward order) is represented by
a doubly-linked ring s, xs(0), ..., xs(k-1), back to s. The open segment
predicate records the double links along a path without the closing pair. -/

/-- The last address of a path that starts at a and continues through xs. -/
def lastOf (a : Nat) : List Nat → Nat
  | [] => a
  | x :: xs => lastOf x xs

/-- The first address of a path through xs that ends at the default b. -/
def headOf (b : Nat) : List Nat → Nat
  | [] => b
  | x :: _ => x

/-- Double links along the path a, xs(0), ..., xs(k-1): each consecutive
pair p, q satisfies p.next = q and q.prev = p. Nothing is said about the
next field of the final address or the prev field of a. -/
def openSeg (h : Heap) : Nat → List Nat → Prop
  | _, [] => True
  | a, x :: xs => (h a).next = x ∧ (h x).prev = a ∧ openSeg h x xs

instance openSeg.inst (h : Heap) : (a : Nat) → (xs : List Nat) →
    Decidable (openSeg h a xs)
  | _, [] => Decidable.isTrue trivial
  | a, x :: xs =>
    have : Decidable (openSeg h x xs) := openSeg.inst h x xs
    inferInstanceAs (Decidable (_ ∧ _ ∧ _))

/-- The ring of a list: double links along sentinel and elements, closed by
the pair from the last address back to the sentinel. -/
def isRing (h : Heap) (s : Nat) (xs : List Nat) : Prop :=
  openSeg h s xs ∧ (h (lastOf s xs)).next = s ∧ (h s).prev = lastOf s xs

instance isRing.inst (h : Heap) (s : Nat) (xs : List Nat) :
    Decidable (isRing h s xs) :=
  inferInstanceAs (Decidable (_ ∧ _ ∧ _))

/-- Well-formed list state: a ring, no duplicated addresses, and every
element flagged as linked. -/
def WF (h : Heap) (s : Nat) (xs : List Nat) : Prop :=
  isRing h s xs ∧ (s :: xs).Nodup ∧ ∀ x ∈ xs, (h x).linked = true

instance WF.inst (h : Heap) (s : Nat) (xs : List Nat) : Decidable (WF h s xs) :=
  inferInstanceAs (Decidable (_ ∧ _ ∧ _))

@[simp] theorem lastOf_nil (a : Nat) : lastOf a [] = a := rfl

@[simp] theorem lastOf_cons (a x : Nat) (xs : List Nat) :
    lastOf a (x :: xs) = lastOf x xs := rfl

@[simp] theorem headOf_nil (b : Nat) : headOf b [] = b := rfl

@[simp] theorem headOf_cons (b x : Nat) (xs : List Nat) :
    headOf b (x :: xs) = x := rfl

theorem lastOf_append (a : Nat) (l1 l2 : List Nat) :
    lastOf a (l1 ++ l2) = lastOf (lastOf a l1) l2 := by
  induction l1 generalizing a with
  | nil => rfl
  | cons x l1 ih => simpa using ih x

@[simp] theorem lastOf_concat (a x : Nat) (xs : List Nat) :
    lastOf a (xs ++ [x]) = x := by
  simp [lastOf_append]

theorem lastOf_append_cons (a m : Nat) (l lx : List Nat) :
    lastOf a (l ++ m :: lx) = lastOf m lx := by
  rw [lastOf_append]; rfl

theorem lastOf_mem (a : Nat) (xs : List Nat) : lastOf a xs ∈ a :: xs := by
  induction xs generalizing a with
  | nil => simp
  | cons x xs ih =>
    rcases List.mem_cons.mp (ih x) with hx | hx
    · simp [hx]
    · simp [List.mem_cons, Or.inr (Or.inr hx)]

theorem headOf_mem (b : Nat) (xs : List Nat) : headOf b xs ∈ b :: xs := by
  cases xs <;> simp [headOf]

theorem openSeg_append (h : Heap) (a : Nat) (l1 l2 : List Nat) :
    openSeg h a (l1 ++ l2) ↔ openSeg h a l1 ∧ openSeg h (lastOf a l1) l2 := by
  induction l1 generalizing a with
  | nil => simp [openSeg]
  | cons x l1 ih =>
    simp only [List.cons_append, openSeg, lastOf_cons]
    rw [show l1.append l2 = l1 ++ l2 from rfl, ih x]
    tauto

/-- A heap change that leaves the next fields read by an open segment (all
addresses except the final one) and the prev fields of the segment elements
untouched preserves the segment. -/
theorem openSeg_congr {h h2 : Heap} {a : Nat} {xs : List Nat}
    (hN : ∀ z ∈ (a :: xs).dropLast, (h2 z).next = (h z).next)
    (hP : ∀ z ∈ xs, (h2 z).prev = (h z).prev)
    (hs : openSeg h a xs) : openSeg h2 a xs := by
  induction xs generalizing a with
  | nil => trivial
  | cons x xs ih =>
    obtain ⟨h1, hx, hrest⟩ := hs
    refine ⟨?_, ?_, ?_⟩
    · rw [hN a (by cases xs <;> simp [List.dropLast])]; exact h1
    · rw [hP x (by simp)]; exact hx
    · cases xs with
      | nil => trivial
      | cons y ys =>
        refine ih ?_ ?_ hrest
        · intro z hz
          refine hN z ?_
          simp only [List.dropLast] at hz ⊢
          exact List.mem_cons_of_mem _ hz
        · intro z hz
          exact hP z (List.mem_cons_of_mem _ hz)

theorem openSeg_next_headOf {h : Heap} {a b : Nat} {xs : List Nat}
    (hs : openSeg h a xs)
    (hclose : (h (lastOf a xs)).next = b) :
    (h a).next = headOf b xs := by
  cases xs with
  | nil => simpa using hclose
  | cons x xs => exact hs.1

theorem lastOf_eq_getLast (a : Nat) (xs : List Nat) :
    lastOf a xs = (a :: xs).getLast (List.cons_ne_nil a xs) := by
  induction xs generalizing a with
  | nil => rfl
  | cons x xs ih => rw [lastOf_cons, ih x]; exact (List.getLast_cons _).symm

theorem mem_of_mem_dropLast {z : Nat} {l : List Nat}
    (hz : z ∈ l.dropLast) : z ∈ l := by
  induction l with
  | nil => simpa using hz
  | cons x l ih =>
    cases l with
    | nil => simpa using hz
    | cons y l =>
      rw [List.dropLast_cons₂, List.mem_cons] at hz
      rcases hz with hz | hz
      · simp [hz]
      · exact List.mem_cons_of_mem _ (ih hz)

theorem mem_dropLast_ne_lastOf {a : Nat} {xs : List Nat}
    (hnd : (a :: xs).Nodup) {z : Nat}
    (hz : z ∈ (a :: xs).dropLast) : z ≠ lastOf a xs := by
  rw [lastOf_eq_getLast]
  intro hcontra
  have hsplit := List.dropLast_append_getLast (List.cons_ne_nil a xs)
  rw [← hsplit] at hnd
  rw [List.nodup_append] at hnd
  exact hnd.2.2 hz (by simp [hcontra])

theorem nodup_mid {s x : Nat} {l1 l2 : List Nat}
    (hnd : (s :: (l1 ++ x :: l2)).Nodup) :
    (s :: (l1 ++ l2)).Nodup ∧ x ∉ s :: (l1 ++ l2) := by
  constructor
  · refine List.Nodup.sublist ?_ hnd
    exact List.Sublist.cons₂ s
      (List.Sublist.append_left (List.sublist_cons_self x l2) l1)
  · intro hx
    rcases List.mem_cons.mp hx with hx | hx
    · rw [List.nodup_cons] at hnd
      exact hnd.1 (by rw [hx]; simp)
    · rcases List.mem_append.mp hx with hx | hx
      · have := (List.nodup_cons.mp hnd).2
        rw [List.nodup_append] at this
        exact this.2.2 hx (by simp)
      · have := (List.nodup_cons.mp hnd).2
        rw [List.nodup_append] at this
        have hxl := this.2.1
        rw [List.nodup_cons] at hxl
        exact hxl.1 hx

/-! ### Traversal

Forward traversal walks next pointers from begin toward the sentinel, as the
iterator increment does; backward traversal walks prev pointers from the
node before end, as the iterator decrement does. Fuel bounds the walk. -/

/-- Forward walk along next pointers, collecting addresses until the
sentinel s or fuel exhaustion. -/
def travNext (h : Heap) (s : Nat) : Nat → Nat → List Nat
  | _, 0 => []
  | cur, fuel + 1 =>
    if cur = s then [] else cur :: travNext h s ((h cur).next) fuel

/-- Backward walk along prev pointers, collecting addresses until the
sentinel s or fuel exhaustion. -/
def travPrev (h : Heap) (s : Nat) : Nat → Nat → List Nat
  | _, 0 => []
  | cur, fuel + 1 =>
    if cur = s then [] else cur :: travPrev h s ((h cur).prev) fuel

theorem travNext_openSeg {h : Heap} {s : Nat} :
    ∀ {xs : List Nat} {a : Nat} {fuel : Nat},
    openSeg h a xs → (h (lastOf a xs)).next = s → (∀ x ∈ xs, x ≠ s) →
    xs.length ≤ fuel → travNext h s (headOf s xs) fuel = xs := by
  intro xs
  induction xs with
  | nil =>
    intro a fuel _ _ _ _
    cases fuel <;> simp [travNext, headOf]
  | cons x xs ih =>
    intro a fuel hseg hclose hfree hlen
    obtain ⟨h1, h2, h3⟩ := hseg
    cases fuel with
    | zero => simp at hlen
    | succ fuel =>
      have hxnext : (h x).next = headOf s xs :=
        openSeg_next_headOf h3 (by simpa using hclose)
      simp only [headOf, travNext, if_neg (hfree x (by simp))]
      rw [hxnext, ih h3 (by simpa using hclose)
        (fun y hy => hfree y (List.mem_cons_of_mem _ hy)) (by simpa using hlen)]

theorem travPrev_openSeg {h : Heap} {s : Nat} :
    ∀ {xs : List Nat} {fuel : Nat},
    openSeg h s xs → (∀ x ∈ xs, x ≠ s) →
    xs.length ≤ fuel → travPrev h s (lastOf s xs) fuel = xs.reverse := by
  intro xs
  induction xs using List.reverseRecOn with
  | nil =>
    intro fuel _ _ _
    cases fuel <;> simp [travPrev]
  | append_singleton xs x ih =>
    intro fuel hseg hfree hlen
    rw [openSeg_append] at hseg
    obtain ⟨hseg1, hseg2⟩ := hseg
    obtain ⟨hx1, hx2, -⟩ := hseg2
    cases fuel with
    | zero => simp at hlen
    | succ fuel =>
      simp only [lastOf_concat, travPrev, if_neg (hfree x (by simp))]
      rw [hx2, ih hseg1
        (fun y hy => hfree y (by simp [hy]))
        (by simp at hlen; omega)]
      simp

/-- Forward traversal of a well-formed list from begin yields exactly the
element sequence. -/
theorem travNext_ring {h : Heap} {s : Nat} {xs : List Nat}
    (hwf : WF h s xs) {fuel : Nat} (hfuel : xs.length ≤ fuel) :
    travNext h s (beginIt h s) fuel = xs := by
  obtain ⟨⟨hseg, hc1, hc2⟩, hnd, -⟩ := hwf
  have hfree : ∀ x ∈ xs, x ≠ s := by
    intro x hx hcontra
    exact (List.nodup_cons.mp hnd).1 (hcontra ▸ hx)
  have : (h s).next = headOf s xs := openSeg_next_headOf hseg hc1
  rw [beginIt, this]
  exact travNext_openSeg hseg hc1 hfree hfuel

/-- Backward traversal of a well-formed list from the node before end
yields exactly the reversed element sequence. -/
theorem travPrev_ring {h : Heap} {s : Nat} {xs : List Nat}
    (hwf : WF h s xs) {fuel : Nat} (hfuel : xs.length ≤ fuel) :
    travPrev h s ((h s).prev) fuel = xs.reverse := by
  obtain ⟨⟨hseg, hc1, hc2⟩, hnd, -⟩ := hwf
  have hfree : ∀ x ∈ xs, x ≠ s := by
    intro x hx hcontra
    exact (List.nodup_cons.mp hnd).1 (hcontra ▸ hx)
  rw [hc2]
  exact travPrev_openSeg hseg hfree hfuel

/-- Every address in the ring of a well-formed list, the sentinel included,
satisfies the two circular-consistency equations: the prev of its next is
itself and the next of its prev is itself. -/
theorem ring_consistency {h : Heap} {s : Nat} {xs : List Nat}
    (hring : isRing h s xs) :
    ∀ x ∈ s :: xs, (h ((h x).next)).prev = x ∧ (h ((h x).prev)).next = x := by
  obtain ⟨hseg, hc1, hc2⟩ := hring
  have hsucc : ∀ (a : Nat) (l : List Nat), openSeg h a l →
      (h (lastOf a l)).next = s → (h s).prev = lastOf a l →
      ∀ x ∈ a :: l, (h ((h x).next)).prev = x := by
    intro a l
    induction l generalizing a with
    | nil =>
      intro _ hca hcb x hx
      rw [List.mem_singleton] at hx
      subst hx
      simp only [lastOf_nil] at hca hcb
      rw [hca, hcb]
    | cons y ys ih =>
      intro hsg hca hcb x hx
      obtain ⟨h1, h2, h3⟩ := hsg
      rcases List.mem_cons.mp hx with hx | hx
      · subst hx; rw [h1, h2]
      · exact ih y h3 (by simpa using hca) (by simpa using hcb) x hx
  have hpred : ∀ (a : Nat) (l : List Nat), openSeg h a l →
      ∀ x ∈ l, (h ((h x).prev)).next = x := by
    intro a l
    induction l generalizing a with
    | nil => intro _ x hx; simp at hx
    | cons y ys ih =>
      intro hsg x hx
      obtain ⟨h1, h2, h3⟩ := hsg
      rcases List.mem_cons.mp hx with hx | hx
      · subst hx; rw [h2, h1]
      · exact ih y h3 x hx
  intro x hx
  refine ⟨hsucc s xs hseg hc1 hc2 x hx, ?_⟩
  rcases List.mem_cons.mp hx with hx | hx
  · subst hx; rw [hc2, hc1]
  · exact hpred s xs hseg x hx

theorem nodup_split3 {s : Nat} {l1 l2 : List Nat}
    (hnd : (s :: (l1 ++ l2)).Nodup) :
    (s :: l1).Nodup ∧ (s :: l2).Nodup ∧
    (∀ z ∈ l1, z ∉ s :: l2) ∧ (∀ z ∈ l2, z ∉ s :: l1) := by
  rw [List.nodup_cons, List.mem_append, not_or] at hnd
  obtain ⟨⟨hs1, hs2⟩, hnd12⟩ := hnd
  rw [List.nodup_append] at hnd12
  obtain ⟨hn1, hn2, hdisj⟩ := hnd12
  refine ⟨List.nodup_cons.mpr ⟨hs1, hn1⟩, List.nodup_cons.mpr ⟨hs2, hn2⟩,
    ?_, ?_⟩
  · intro z hz hmem
    rcases List.mem_cons.mp hmem with hmem | hmem
    · exact hs1 (hmem ▸ hz)
    · exact hdisj hz hmem
  · intro z hz hmem
    rcases List.mem_cons.mp hmem with hmem | hmem
    · exact hs2 (hmem ▸ hz)
    · exact hdisj hmem hz

/-! ### Ring surgery: unlink

Unlinking an element x of a well-formed ring closes the gap around x and
clears only the linked flag of x. -/

theorem unlink_spec (h : Heap) (s x : Nat) (l1 l2 : List Nat)
    (hring : isRing h s (l1 ++ x :: l2))
    (hnd : (s :: (l1 ++ x :: l2)).Nodup) :
    isRing (unlink h x) s (l1 ++ l2) ∧
    (∀ y, (unlink h x y).linked = if y = x then false else (h y).linked) ∧
    (h x).prev = lastOf s l1 ∧ (h x).next = headOf s l2 := by
  obtain ⟨hseg, hc1, hc2⟩ := hring
  obtain ⟨hnd2, hxnotin⟩ := nodup_mid hnd
  obtain ⟨hndl1, hndl2, hd12, hd21⟩ := nodup_split3 hnd2
  rw [openSeg_append] at hseg
  obtain ⟨hseg1, hseg2⟩ := hseg
  obtain ⟨hpx, hxp, hsegx⟩ := hseg2
  have hlast_mid : lastOf s (l1 ++ x :: l2) = lastOf x l2 := by
    rw [lastOf_append]; rfl
  have hxn : (h x).next = headOf s l2 :=
    openSeg_next_headOf hsegx (by rw [← hlast_mid]; exact hc1)
  have hNf : ∀ y, (unlink h x y).next =
      if y = lastOf s l1 then headOf s l2 else (h y).next := by
    intro y; rw [unlink_next, hxp, hxn]
  have hPf : ∀ y, (unlink h x y).prev =
      if y = headOf s l2 then lastOf s l1 else (h y).prev := by
    intro y; rw [unlink_prev, hxp, hxn]
  refine ⟨⟨?_, ?_, ?_⟩, unlink_linked h x, hxp, hxn⟩
  · rw [openSeg_append]
    constructor
    · refine openSeg_congr (fun z hz => ?_) (fun z hz => ?_) hseg1
      · rw [hNf, if_neg (mem_dropLast_ne_lastOf hndl1 hz)]
      · rw [hPf, if_neg ?_]
        intro hcontra
        exact hd12 z hz (hcontra ▸ headOf_mem s l2)
    · cases l2 with
      | nil => trivial
      | cons m l2x =>
        obtain ⟨hxm, hmx, hsegm⟩ := hsegx
        refine ⟨?_, ?_, ?_⟩
        · rw [hNf, if_pos rfl]; rfl
        · rw [hPf, headOf_cons, if_pos rfl]
        · refine openSeg_congr (fun z hz => ?_) (fun z hz => ?_) hsegm
          · rw [hNf, if_neg ?_]
            intro hcontra
            exact hd21 z (mem_of_mem_dropLast hz)
              (hcontra ▸ lastOf_mem s l1)
          · rw [hPf, headOf_cons, if_neg ?_]
            intro hcontra
            have hm : m ∉ l2x :=
              (List.nodup_cons.mp ((List.nodup_cons.mp hndl2).2)).1
            exact hm (hcontra ▸ hz)
  · cases l2 with
    | nil =>
      have : lastOf s (l1 ++ ([] : List Nat)) = lastOf s l1 := by simp
      rw [this, hNf, if_pos rfl]; rfl
    | cons m l2x =>
      have hq : lastOf s (l1 ++ m :: l2x) = lastOf m l2x := by
        rw [lastOf_append]; rfl
      have hq2 : lastOf s (l1 ++ x :: m :: l2x) = lastOf m l2x := by
        rw [lastOf_append]; rfl
      rw [hq, hNf, if_neg ?_]
      · rw [← hq2]; exact hc1
      · intro hcontra
        refine hd21 (lastOf m l2x) ?_ (hcontra ▸ lastOf_mem s l1)
        have := lastOf_mem m l2x
        rcases List.mem_cons.mp this with hm | hm
        · simp [hm]
        · simp [List.mem_cons, Or.inr hm]
  · cases l2 with
    | nil =>
      have : lastOf s (l1 ++ ([] : List Nat)) = lastOf s l1 := by simp
      rw [this, hPf, headOf_nil, if_pos rfl]
    | cons m l2x =>
      have hq : lastOf s (l1 ++ m :: l2x) = lastOf m l2x := by
        rw [lastOf_append]; rfl
      have hq2 : lastOf s (l1 ++ x :: m :: l2x) = lastOf m l2x := by
        rw [lastOf_append]; rfl
      rw [hq, hPf, if_neg ?_]
      · rw [hc2, hq2]
      · intro hcontra
        have hsm : s ≠ m := fun hcs =>
          (List.nodup_cons.mp hndl2).1 (hcs ▸ List.mem_cons_self m l2x)
        exact hsm (by simpa using hcontra)

/-! ### Ring surgery: insert_before

Inserting a fresh element x just before the position that starts the suffix
l2 threads x into the ring between the prefix and the suffix, and sets only
the linked flag of x. -/

theorem insert_before_spec (h : Heap) (s x : Nat) (l1 l2 : List Nat)
    (hring : isRing h s (l1 ++ l2))
    (hnd : (s :: (l1 ++ l2)).Nodup)
    (hx : x ∉ s :: (l1 ++ l2)) :
    isRing (insert_before h (headOf s l2) x) s (l1 ++ x :: l2) ∧
    (∀ y, (insert_before h (headOf s l2) x y).linked =
      if y = x then true else (h y).linked) ∧
    (h (headOf s l2)).prev = lastOf s l1 := by
  obtain ⟨hseg, hc1, hc2⟩ := hring
  obtain ⟨hndl1, hndl2, hd12, hd21⟩ := nodup_split3 hnd
  have hxs1 : x ∉ s :: l1 := by
    intro hmem
    rcases List.mem_cons.mp hmem with hmem | hmem
    · exact hx (by simp [hmem])
    · exact hx (by simp [List.mem_cons, List.mem_append, Or.inr (Or.inl hmem)])
  have hxs2 : x ∉ s :: l2 := by
    intro hmem
    rcases List.mem_cons.mp hmem with hmem | hmem
    · exact hx (by simp [hmem])
    · exact hx (by simp [List.mem_cons, List.mem_append, Or.inr (Or.inr hmem)])
  rw [openSeg_append] at hseg
  obtain ⟨hseg1, hseg2⟩ := hseg
  have hprev : (h (headOf s l2)).prev = lastOf s l1 := by
    cases l2 with
    | nil =>
      rw [headOf_nil, hc2]; simp
    | cons m l2x => exact hseg2.2.1
  have hNf : ∀ y, (insert_before h (headOf s l2) x y).next =
      if y = lastOf s l1 then x
      else if y = x then headOf s l2 else (h y).next := by
    intro y
    rw [insert_before, link_between_next, hprev]
  have hPf : ∀ y, (insert_before h (headOf s l2) x y).prev =
      if y = headOf s l2 then x
      else if y = x then lastOf s l1 else (h y).prev := by
    intro y
    rw [insert_before, link_between_prev, hprev]
  have hLf : ∀ y, (insert_before h (headOf s l2) x y).linked =
      if y = x then true else (h y).linked := by
    intro y
    rw [insert_before, link_between_linked]
  have hxnep : x ≠ lastOf s l1 := by
    intro hcontra
    exact hxs1 (hcontra ▸ lastOf_mem s l1)
  have hxnepos : x ≠ headOf s l2 := by
    intro hcontra
    exact hxs2 (hcontra ▸ headOf_mem s l2)
  refine ⟨⟨?_, ?_, ?_⟩, hLf, hprev⟩
  · rw [openSeg_append]
    constructor
    · refine openSeg_congr (fun z hz => ?_) (fun z hz => ?_) hseg1
      · rw [hNf, if_neg (mem_dropLast_ne_lastOf hndl1 hz), if_neg ?_]
        intro hcontra
        exact hxs1 (hcontra ▸ mem_of_mem_dropLast hz)
      · rw [hPf, if_neg ?_, if_neg ?_]
        · intro hcontra
          exact hxs1 (hcontra ▸ List.mem_cons_of_mem s hz)
        · intro hcontra
          exact hd12 z hz (hcontra ▸ headOf_mem s l2)
    · refine ⟨?_, ?_, ?_⟩
      · rw [hNf, if_pos rfl]
      · rw [hPf, if_neg hxnepos, if_pos rfl]
      · cases l2 with
        | nil => trivial
        | cons m l2x =>
          obtain ⟨hpm, hmp, hsegm⟩ := hseg2
          refine ⟨?_, ?_, ?_⟩
          · rw [hNf, if_neg hxnep, if_pos rfl, headOf_cons]
          · rw [hPf, headOf_cons, if_pos rfl]
          · refine openSeg_congr (fun z hz => ?_) (fun z hz => ?_) hsegm
            · rw [hNf, if_neg ?_, if_neg ?_]
              · intro hcontra
                exact hxs2 (hcontra ▸
                  List.mem_cons_of_mem s (mem_of_mem_dropLast hz))
              · intro hcontra
                exact hd21 z (mem_of_mem_dropLast hz)
                  (hcontra ▸ lastOf_mem s l1)
            · rw [hPf, headOf_cons, if_neg ?_, if_neg ?_]
              · intro hcontra
                exact hxs2 (hcontra ▸
                  List.mem_cons_of_mem s (List.mem_cons_of_mem m hz))
              · intro hcontra
                have hm : m ∉ l2x :=
                  (List.nodup_cons.mp ((List.nodup_cons.mp hndl2).2)).1
                exact hm (hcontra ▸ hz)
  · cases l2 with
    | nil =>
      have : lastOf s (l1 ++ [x]) = x := lastOf_concat s x l1
      rw [this, hNf, if_neg hxnep, if_pos rfl, headOf_nil]
    | cons m l2x =>
      have hq : lastOf s (l1 ++ x :: m :: l2x) = lastOf m l2x := by
        rw [lastOf_append]; rfl
      have hq2 : lastOf s (l1 ++ m :: l2x) = lastOf m l2x := by
        rw [lastOf_append]; rfl
      have hqmem : lastOf m l2x ∈ m :: l2x := lastOf_mem m l2x
      rw [hq, hNf, if_neg ?_, if_neg ?_]
      · rw [← hq2]; exact hc1
      · intro hcontra
        exact hxs2 (List.mem_cons_of_mem s (hcontra ▸ hqmem))
      · intro hcontra
        exact hd21 _ hqmem (hcontra ▸ lastOf_mem s l1)
  · cases l2 with
    | nil =>
      have : lastOf s (l1 ++ [x]) = x := lastOf_concat s x l1
      rw [this, hPf, headOf_nil, if_pos rfl]
    | cons m l2x =>
      have hq : lastOf s (l1 ++ x :: m :: l2x) = lastOf m l2x := by
        rw [lastOf_append]; rfl
      have hq2 : lastOf s (l1 ++ m :: l2x) = lastOf m l2x := by
        rw [lastOf_append]; rfl
      have hsm : s ≠ m := fun hcs =>
        (List.nodup_cons.mp hndl2).1 (hcs ▸ List.mem_cons_self m l2x)
      rw [hq, hPf, headOf_cons, if_neg hsm, if_neg ?_]
      · rw [hc2, hq2]
      · intro hcontra
        exact hxs1 (by rw [← hcontra]; simp)

theorem nodup_two {sA sB : Nat} {la lb : List Nat}
    (hnd : (sA :: sB :: (la ++ lb)).Nodup) :
    (sA :: la).Nodup ∧ (sB :: lb).Nodup ∧
    ∀ u ∈ sA :: la, ∀ v ∈ sB :: lb, u ≠ v := by
  rw [List.nodup_cons] at hnd
  obtain ⟨hsA, hnd⟩ := hnd
  rw [List.nodup_cons, List.mem_append, not_or] at hnd
  obtain ⟨⟨hsB1, hsB2⟩, hnd⟩ := hnd
  rw [List.nodup_append] at hnd
  obtain ⟨hna, hnb, hdisj⟩ := hnd
  rw [List.mem_cons, List.mem_append, not_or, not_or] at hsA
  obtain ⟨hsAsB, hsAla, hsAlb⟩ := hsA
  refine ⟨List.nodup_cons.mpr ⟨hsAla, hna⟩, List.nodup_cons.mpr ⟨hsB2, hnb⟩,
    ?_⟩
  intro u hu v hv
  rcases List.mem_cons.mp hu with hu | hu <;>
    rcases List.mem_cons.mp hv with hv | hv
  · exact hu ▸ hv ▸ hsAsB
  · intro hc; exact hsAlb (hu ▸ hc ▸ hv)
  · intro hc; exact hsB1 (hv ▸ hc ▸ hu)
  · intro hc; exact hdisj hu (hc ▸ hv)

/-! ### Ring surgery: transfer_range

Transferring the non-empty run bs out of the source ring of sB to just
before the position that starts the suffix a2 of the destination ring of sA
closes the gap in the source and threads the run, order preserved, into the
destination. Linked flags are untouched. -/

theorem transfer_range_spec (h : Heap) (sA sB : Nat)
    (a1 a2 b1 bs b2 : List Nat) (hbs : bs ≠ [])
    (hA : isRing h sA (a1 ++ a2))
    (hB : isRing h sB (b1 ++ (bs ++ b2)))
    (hnd : (sA :: sB :: ((a1 ++ a2) ++ (b1 ++ (bs ++ b2)))).Nodup) :
    isRing (transfer_range h (headOf sA a2) (headOf sB bs) (headOf sB b2))
      sA (a1 ++ (bs ++ a2)) ∧
    isRing (transfer_range h (headOf sA a2) (headOf sB bs) (headOf sB b2))
      sB (b1 ++ b2) := by
  obtain ⟨f, bsx, rfl⟩ := List.exists_cons_of_ne_nil hbs
  obtain ⟨hndA, hndB, hdAB⟩ := nodup_two hnd
  obtain ⟨hndA1, hndA2, hdA12, hdA21⟩ := nodup_split3 hndA
  obtain ⟨hndB1, hndB23, hdB1, hdB1r⟩ := nodup_split3 hndB
  obtain ⟨hndBs, hndB2, hdBs2, hdB2s⟩ := nodup_split3 hndB23
  -- region casts
  have mA1 : ∀ z ∈ sA :: a1, z ∈ sA :: (a1 ++ a2) := by
    intro z hz
    rcases List.mem_cons.mp hz with hz | hz <;>
      simp [List.mem_cons, List.mem_append, hz]
  have mA2 : ∀ z ∈ sA :: a2, z ∈ sA :: (a1 ++ a2) := by
    intro z hz
    rcases List.mem_cons.mp hz with hz | hz <;>
      simp [List.mem_cons, List.mem_append, hz]
  have mB1 : ∀ z ∈ sB :: b1, z ∈ sB :: (b1 ++ (f :: bsx ++ b2)) := by
    intro z hz
    rcases List.mem_cons.mp hz with hz | hz <;>
      simp [List.mem_cons, List.mem_append, hz]
  have mBs : ∀ z ∈ f :: bsx, z ∈ sB :: (b1 ++ (f :: bsx ++ b2)) := by
    intro z hz
    have : z ∈ f :: bsx ++ b2 := by
      rw [List.cons_append]
      rcases List.mem_cons.mp hz with hz | hz
      · simp [hz]
      · simp [List.mem_cons, List.mem_append, hz]
    simp [List.mem_cons, List.mem_append]
    rcases List.mem_cons.mp hz with hz | hz <;> simp [hz]
  have mB2 : ∀ z ∈ sB :: b2, z ∈ sB :: (b1 ++ (f :: bsx ++ b2)) := by
    intro z hz
    rcases List.mem_cons.mp hz with hz | hz <;>
      simp [List.mem_cons, List.mem_append, hz]
  -- the six distinguished addresses
  obtain ⟨hsegA, hcA1, hcA2⟩ := hA
  obtain ⟨hsegB, hcB1, hcB2⟩ := hB
  rw [openSeg_append] at hsegA
  obtain ⟨hsegA1, hsegA2⟩ := hsegA
  rw [openSeg_append] at hsegB
  obtain ⟨hsegB1, hsegB2⟩ := hsegB
  rw [List.cons_append] at hsegB2
  obtain ⟨hbff, hfbf, hsegf⟩ := hsegB2
  rw [openSeg_append] at hsegf
  obtain ⟨hsegbsx, hsegt⟩ := hsegf
  -- abbreviating equations
  have hposprev : (h (headOf sA a2)).prev = lastOf sA a1 := by
    cases a2 with
    | nil => rw [headOf_nil, hcA2]; simp
    | cons pa a2x => exact hsegA2.2.1
  have hfirstprev : (h (headOf sB (f :: bsx))).prev = lastOf sB b1 := by
    rw [headOf_cons]; exact hfbf
  have hlastprev : (h (headOf sB b2)).prev = lastOf f bsx := by
    cases b2 with
    | nil =>
      rw [headOf_nil, hcB2, lastOf_append]
      simp
    | cons lt b2x => exact hsegt.2.1
  have hNf : ∀ y,
      (transfer_range h (headOf sA a2) (headOf sB (f :: bsx))
        (headOf sB b2) y).next =
      if y = lastOf f bsx then headOf sA a2
      else if y = lastOf sA a1 then f
      else if y = lastOf sB b1 then headOf sB b2
      else (h y).next := by
    intro y
    rw [transfer_range_next, hposprev, hfirstprev, hlastprev, headOf_cons]
  have hPf : ∀ y,
      (transfer_range h (headOf sA a2) (headOf sB (f :: bsx))
        (headOf sB b2) y).prev =
      if y = headOf sA a2 then lastOf f bsx
      else if y = f then lastOf sA a1
      else if y = headOf sB b2 then lastOf sB b1
      else (h y).prev := by
    intro y
    rw [transfer_range_prev, hposprev, hfirstprev, hlastprev, headOf_cons]
  -- memberships of the distinguished addresses
  have han : lastOf sA a1 ∈ sA :: (a1 ++ a2) := mA1 _ (lastOf_mem sA a1)
  have hpos : headOf sA a2 ∈ sA :: (a1 ++ a2) := mA2 _ (headOf_mem sA a2)
  have hbf : lastOf sB b1 ∈ sB :: (b1 ++ (f :: bsx ++ b2)) :=
    mB1 _ (lastOf_mem sB b1)
  have hlst : headOf sB b2 ∈ sB :: (b1 ++ (f :: bsx ++ b2)) :=
    mB2 _ (headOf_mem sB b2)
  have htm : lastOf f bsx ∈ f :: bsx := lastOf_mem f bsx
  have ht : lastOf f bsx ∈ sB :: (b1 ++ (f :: bsx ++ b2)) := mBs _ htm
  have hfm : f ∈ f :: bsx := List.mem_cons_self f bsx
  have hf : f ∈ sB :: (b1 ++ (f :: bsx ++ b2)) := mBs _ hfm
  have hndbsf : (f :: bsx).Nodup := (List.nodup_cons.mp hndBs).2
  have hsAa2 : sA ∉ a2 := (List.nodup_cons.mp hndA2).1
  have hsBb2 : sB ∉ b2 := (List.nodup_cons.mp hndB2).1
  have hsBbs : sB ∉ f :: bsx := (List.nodup_cons.mp hndBs).1
  have ht_nb1 : lastOf f bsx ∉ sB :: b1 :=
    hdB1r _ (List.mem_append_left b2 htm)
  have hf_nb1 : f ∉ sB :: b1 := hdB1r _ (List.mem_append_left b2 hfm)
  have cB2s : ∀ w ∈ sB :: b2, w ∈ sB :: ((f :: bsx) ++ b2) := by
    intro w hw
    rcases List.mem_cons.mp hw with hw | hw <;>
      simp [List.mem_cons, List.mem_append, hw]
  have cf : f ∈ sB :: ((f :: bsx) ++ b2) := by simp
  constructor
  · -- destination ring
    refine ⟨?_, ?_, ?_⟩
    · rw [openSeg_append]
      constructor
      · refine openSeg_congr (fun z hz => ?_) (fun z hz => ?_) hsegA1
        · rw [hNf,
            if_neg (show z ≠ lastOf f bsx from
              fun hc => hdAB z (mA1 z (mem_of_mem_dropLast hz)) _ ht hc),
            if_neg (mem_dropLast_ne_lastOf hndA1 hz),
            if_neg (show z ≠ lastOf sB b1 from
              fun hc => hdAB z (mA1 z (mem_of_mem_dropLast hz)) _ hbf hc)]
        · rw [hPf,
            if_neg (show z ≠ headOf sA a2 from
              fun hc => hdA12 z hz (hc ▸ headOf_mem sA a2)),
            if_neg (show z ≠ f from
              fun hc => hdAB z (mA1 z (List.mem_cons_of_mem sA hz)) _ hf hc),
            if_neg (show z ≠ headOf sB b2 from
              fun hc => hdAB z (mA1 z (List.mem_cons_of_mem sA hz)) _ hlst hc)]
      · rw [List.cons_append]
        refine ⟨?_, ?_, ?_⟩
        · rw [hNf,
            if_neg (show lastOf sA a1 ≠ lastOf f bsx from
              fun hc => hdAB _ han _ ht hc),
            if_pos rfl]
        · rw [hPf,
            if_neg (show f ≠ headOf sA a2 from
              fun hc => hdAB _ hpos _ hf hc.symm),
            if_pos rfl]
        · rw [openSeg_append]
          constructor
          · refine openSeg_congr (fun z hz => ?_) (fun z hz => ?_) hsegbsx
            · rw [hNf,
                if_neg (mem_dropLast_ne_lastOf hndbsf hz),
                if_neg (show z ≠ lastOf sA a1 from fun hc => hdAB _ han _
                  (mBs z (mem_of_mem_dropLast hz)) hc.symm),
                if_neg (show z ≠ lastOf sB b1 from fun hc => hdB1r z
                  (List.mem_append_left b2 (mem_of_mem_dropLast hz))
                  (hc ▸ lastOf_mem sB b1))]
            · rw [hPf,
                if_neg (show z ≠ headOf sA a2 from fun hc => hdAB _ hpos _
                  (mBs z (List.mem_cons_of_mem f hz)) hc.symm),
                if_neg (show z ≠ f from
                  fun hc => (List.nodup_cons.mp hndbsf).1 (hc ▸ hz)),
                if_neg (show z ≠ headOf sB b2 from
                  fun hc => hdBs2 z (List.mem_cons_of_mem f hz)
                    (hc ▸ headOf_mem sB b2))]
          · cases a2 with
            | nil => trivial
            | cons pa a2x =>
              obtain ⟨hanpa, hpaan, hsegA2x⟩ := hsegA2
              refine ⟨?_, ?_, ?_⟩
              · rw [hNf, if_pos rfl, headOf_cons]
              · rw [hPf, headOf_cons, if_pos rfl]
              · refine openSeg_congr (fun z hz => ?_) (fun z hz => ?_) hsegA2x
                · rw [hNf,
                    if_neg (show z ≠ lastOf f bsx from
                      fun hc => hdAB z (mA2 z (List.mem_cons_of_mem sA
                        (mem_of_mem_dropLast hz))) _ ht hc),
                    if_neg (show z ≠ lastOf sA a1 from
                      fun hc => hdA21 z (mem_of_mem_dropLast hz)
                        (hc ▸ lastOf_mem sA a1)),
                    if_neg (show z ≠ lastOf sB b1 from
                      fun hc => hdAB z (mA2 z (List.mem_cons_of_mem sA
                        (mem_of_mem_dropLast hz))) _ hbf hc)]
                · rw [hPf, headOf_cons,
                    if_neg (show z ≠ pa from fun hc => (List.nodup_cons.mp
                      (List.nodup_cons.mp hndA2).2).1 (hc ▸ hz)),
                    if_neg (show z ≠ f from
                      fun hc => hdAB z (mA2 z (List.mem_cons_of_mem sA
                        (List.mem_cons_of_mem pa hz))) _ hf hc),
                    if_neg (show z ≠ headOf sB b2 from
                      fun hc => hdAB z (mA2 z (List.mem_cons_of_mem sA
                        (List.mem_cons_of_mem pa hz))) _ hlst hc)]
    · cases a2 with
      | nil =>
        have hL : lastOf sA (a1 ++ ((f :: bsx) ++ ([] : List Nat))) =
            lastOf f bsx := by
          rw [List.append_nil, lastOf_append_cons]
        rw [hL, hNf, if_pos rfl, headOf_nil]
      | cons pa a2x =>
        have hL : lastOf sA (a1 ++ ((f :: bsx) ++ pa :: a2x)) =
            lastOf pa a2x := by
          rw [lastOf_append, List.cons_append, lastOf_cons, lastOf_append_cons]
        rw [lastOf_append_cons] at hcA1
        have hqam : lastOf pa a2x ∈ pa :: a2x := lastOf_mem pa a2x
        rw [hL, hNf,
          if_neg (show lastOf pa a2x ≠ lastOf f bsx from
            fun hc => hdAB _ (mA2 _ (List.mem_cons_of_mem sA hqam)) _ ht hc),
          if_neg (show lastOf pa a2x ≠ lastOf sA a1 from
            fun hc => hdA21 _ hqam (hc ▸ lastOf_mem sA a1)),
          if_neg (show lastOf pa a2x ≠ lastOf sB b1 from
            fun hc => hdAB _ (mA2 _ (List.mem_cons_of_mem sA hqam)) _ hbf hc)]
        exact hcA1
    · cases a2 with
      | nil =>
        have hL : lastOf sA (a1 ++ ((f :: bsx) ++ ([] : List Nat))) =
            lastOf f bsx := by
          rw [List.append_nil, lastOf_append_cons]
        rw [hL, hPf, headOf_nil, if_pos rfl]
      | cons pa a2x =>
        have hL : lastOf sA (a1 ++ ((f :: bsx) ++ pa :: a2x)) =
            lastOf pa a2x := by
          rw [lastOf_append, List.cons_append, lastOf_cons, lastOf_append_cons]
        rw [lastOf_append_cons] at hcA2
        rw [hL, hPf, headOf_cons,
          if_neg (show sA ≠ pa from fun hc => hsAa2 (by rw [hc]; simp)),
          if_neg (show sA ≠ f from
            fun hc => hdAB _ (List.mem_cons_self sA _) _ hf hc),
          if_neg (show sA ≠ headOf sB b2 from
            fun hc => hdAB _ (List.mem_cons_self sA _) _ hlst hc)]
        exact hcA2
  · -- source ring
    refine ⟨?_, ?_, ?_⟩
    · rw [openSeg_append]
      constructor
      · refine openSeg_congr (fun z hz => ?_) (fun z hz => ?_) hsegB1
        · rw [hNf,
            if_neg (show z ≠ lastOf f bsx from
              fun hc => ht_nb1 (hc ▸ mem_of_mem_dropLast hz)),
            if_neg (show z ≠ lastOf sA a1 from fun hc => hdAB _ han _
              (mB1 z (mem_of_mem_dropLast hz)) hc.symm),
            if_neg (mem_dropLast_ne_lastOf hndB1 hz)]
        · rw [hPf,
            if_neg (show z ≠ headOf sA a2 from fun hc => hdAB _ hpos _
              (mB1 z (List.mem_cons_of_mem sB hz)) hc.symm),
            if_neg (show z ≠ f from fun hc => hdB1 z hz (hc ▸ cf)),
            if_neg (show z ≠ headOf sB b2 from
              fun hc => hdB1 z hz (hc ▸ cB2s _ (headOf_mem sB b2)))]
      · cases b2 with
        | nil => trivial
        | cons lt b2x =>
          obtain ⟨htlt, hltt, hsegb2x⟩ := hsegt
          refine ⟨?_, ?_, ?_⟩
          · rw [hNf,
              if_neg (show lastOf sB b1 ≠ lastOf f bsx from
                fun hc => ht_nb1 (hc ▸ lastOf_mem sB b1)),
              if_neg (show lastOf sB b1 ≠ lastOf sA a1 from
                fun hc => hdAB _ han _ hbf hc.symm),
              if_pos rfl, headOf_cons]
          · rw [hPf, headOf_cons,
              if_neg (show lt ≠ headOf sA a2 from fun hc => hdAB _ hpos _
                (mB2 _ (List.mem_cons_of_mem sB (List.mem_cons_self lt b2x)))
                hc.symm),
              if_neg (show lt ≠ f from
                fun hc => hdB2s lt (List.mem_cons_self lt b2x)
                  (by rw [hc]; simp)),
              if_pos rfl]
          · refine openSeg_congr (fun z hz => ?_) (fun z hz => ?_) hsegb2x
            · rw [hNf,
                if_neg (show z ≠ lastOf f bsx from
                  fun hc => hdB2s z (mem_of_mem_dropLast hz)
                    (by rw [hc]; exact List.mem_cons_of_mem sB htm)),
                if_neg (show z ≠ lastOf sA a1 from
                  fun hc => hdAB _ han _ (mB2 z (List.mem_cons_of_mem sB
                    (mem_of_mem_dropLast hz))) hc.symm),
                if_neg (show z ≠ lastOf sB b1 from
                  fun hc => hdB1r z (List.mem_append_right (f :: bsx)
                    (mem_of_mem_dropLast hz)) (hc ▸ lastOf_mem sB b1))]
            · rw [hPf, headOf_cons,
                if_neg (show z ≠ headOf sA a2 from
                  fun hc => hdAB _ hpos _ (mB2 z (List.mem_cons_of_mem sB
                    (List.mem_cons_of_mem lt hz))) hc.symm),
                if_neg (show z ≠ f from
                  fun hc => hdB2s z (List.mem_cons_of_mem lt hz)
                    (by rw [hc]; simp)),
                if_neg (show z ≠ lt from fun hc => (List.nodup_cons.mp
                  (List.nodup_cons.mp hndB2).2).1 (hc ▸ hz))]
    · cases b2 with
      | nil =>
        have hL : lastOf sB (b1 ++ ([] : List Nat)) = lastOf sB b1 := by simp
        rw [List.append_nil, lastOf_append_cons] at hcB1
        rw [hL, hNf,
          if_neg (show lastOf sB b1 ≠ lastOf f bsx from
            fun hc => ht_nb1 (hc ▸ lastOf_mem sB b1)),
          if_neg (show lastOf sB b1 ≠ lastOf sA a1 from
            fun hc => hdAB _ han _ hbf hc.symm),
          if_pos rfl, headOf_nil]
      | cons lt b2x =>
        have hL : lastOf sB (b1 ++ lt :: b2x) = lastOf lt b2x :=
          lastOf_append_cons sB lt b1 b2x
        rw [lastOf_append, List.cons_append, lastOf_cons,
          lastOf_append_cons] at hcB1
        have hqbm : lastOf lt b2x ∈ lt :: b2x := lastOf_mem lt b2x
        rw [hL, hNf,
          if_neg (show lastOf lt b2x ≠ lastOf f bsx from
            fun hc => hdB2s _ hqbm
              (by rw [hc]; exact List.mem_cons_of_mem sB htm)),
          if_neg (show lastOf lt b2x ≠ lastOf sA a1 from
            fun hc => hdAB _ han _ (mB2 _ (List.mem_cons_of_mem sB hqbm))
              hc.symm),
          if_neg (show lastOf lt b2x ≠ lastOf sB b1 from
            fun hc => hdB1r _ (List.mem_append_right (f :: bsx) hqbm)
              (hc ▸ lastOf_mem sB b1))]
        exact hcB1
    · cases b2 with
      | nil =>
        have hL : lastOf sB (b1 ++ ([] : List Nat)) = lastOf sB b1 := by simp
        rw [hL, hPf, headOf_nil,
          if_neg (show sB ≠ headOf sA a2 from
            fun hc => hdAB _ hpos _ (List.mem_cons_self sB _) hc.symm),
          if_neg (show sB ≠ f from fun hc => hsBbs (by rw [hc]; simp)),
          if_pos rfl]
      | cons lt b2x =>
        have hL : lastOf sB (b1 ++ lt :: b2x) = lastOf lt b2x :=
          lastOf_append_cons sB lt b1 b2x
        rw [lastOf_append, List.cons_append, lastOf_cons,
          lastOf_append_cons] at hcB2
        rw [hL, hPf, headOf_cons,
          if_neg (show sB ≠ headOf sA a2 from
            fun hc => hdAB _ hpos _ (List.mem_cons_self sB _) hc.symm),
          if_neg (show sB ≠ f from fun hc => hsBbs (by rw [hc]; simp)),
          if_neg (show sB ≠ lt from fun hc => hsBb2 (by rw [hc]; simp))]
        exact hcB2

/-! ### Frame lemmas: nodes away from the rewired addresses are untouched -/

theorem unlink_frame (h : Heap) (x y : Nat)
    (h1 : y ≠ (h x).prev) (h2 : y ≠ (h x).next) (h3 : y ≠ x) :
    unlink h x y = h y := by
  ext
  · rw [unlink_prev, if_neg h2]
  · rw [unlink_next, if_neg h1]
  · rw [unlink_linked, if_neg h3]

theorem insert_before_frame (h : Heap) (pos x y : Nat)
    (h1 : y ≠ (h pos).prev) (h2 : y ≠ pos) (h3 : y ≠ x) :
    insert_before h pos x y = h y := by
  ext
  · rw [insert_before, link_between_prev, if_neg h2, if_neg h3]
  · rw [insert_before, link_between_next, if_neg h1, if_neg h3]
  · rw [insert_before, link_between_linked, if_neg h3]

theorem transfer_range_frame (h : Heap) (pos first last y : Nat)
    (h1 : y ≠ (h last).prev) (h2 : y ≠ (h pos).prev) (h3 : y ≠ (h first).prev)
    (h4 : y ≠ pos) (h5 : y ≠ first) (h6 : y ≠ last) :
    transfer_range h pos first last y = h y := by
  ext
  · rw [transfer_range_prev, if_neg h4, if_neg h5, if_neg h6]
  · rw [transfer_range_next, if_neg h1, if_neg h2, if_neg h3]
  · rw [transfer_range_linked]

/-- A heap change that leaves every node of a ring untouched preserves the
ring. -/
theorem isRing_frame {h h2 : Heap} {s : Nat} {xs : List Nat}
    (heq : ∀ y ∈ s :: xs, h2 y = h y) (hring : isRing h s xs) :
    isRing h2 s xs := by
  obtain ⟨hseg, hc1, hc2⟩ := hring
  refine ⟨?_, ?_, ?_⟩
  · refine openSeg_congr (fun z hz => ?_) (fun z hz => ?_) hseg
    · rw [heq z (mem_of_mem_dropLast hz)]
    · rw [heq z (List.mem_cons_of_mem s hz)]
  · rw [heq _ (lastOf_mem s xs)]; exact hc1
  · rw [heq s (List.mem_cons_self s xs)]; exact hc2

/-! ### Concrete heaps used by the witnesses -/

/-- The all-fresh heap: every node unlinked with null pointers. -/
def blank : Heap := fun _ => Node.init

/-- A heap holding one list: sentinel 1 with elements 3 then 4. -/
def sampleA : Heap :=
  push_back (push_back (init_sentinel blank 1) 1 3) 1 4

/-- A heap holding two lists: sentinel 1 with elements 3 then 4, and
sentinel 2 with element 5. -/
def sampleAB : Heap :=
  push_back (init_sentinel sampleA 2) 2 5

/-! ### The claims -/

/-- C10: erase_range over the empty range from an iterator to itself erases
nothing: for any loop fuel, the heap comes back unchanged, so every element
sequence and every linked flag is as before, together with an iterator equal
to the one given. -/
theorem C10_erase_range_empty (h : Heap) (p fuel : Nat) :
    erase_range h p p fuel = (h, p) := by
  cases fuel with
  | zero => rfl
  | succ fuel => simp [erase_range]

/-- C8: insert at the end position is exactly push_back, and in general
insert links the element immediately before the position that starts the
suffix l2, marks it linked, leaves every other linked flag alone, and
returns an iterator to the element. -/
theorem C8_insert_end_push_back (h : Heap) (s x : Nat) (l1 l2 : List Nat)
    (hwf : WF h s (l1 ++ l2)) (hx : x ∉ s :: (l1 ++ l2)) :
    insert h s x = (push_back h s x, x) ∧
    isRing (insert h (headOf s l2) x).1 s (l1 ++ x :: l2) ∧
    (insert h (headOf s l2) x).2 = x ∧
    ((insert h (headOf s l2) x).1 x).linked = true ∧
    ∀ y, y ≠ x → ((insert h (headOf s l2) x).1 y).linked = (h y).linked := by
  obtain ⟨hring, hnd, -⟩ := hwf
  obtain ⟨hring2, hflags, -⟩ := insert_before_spec h s x l1 l2 hring hnd hx
  refine ⟨rfl, hring2, rfl, ?_, ?_⟩
  · show (insert_before h (headOf s l2) x x).linked = true
    rw [hflags, if_pos rfl]
  · intro y hy
    show (insert_before h (headOf s l2) x y).linked = (h y).linked
    rw [hflags, if_neg hy]

/-- C8 witness: on the concrete two-element list, insert at the sentinel
position equals push_back. -/
theorem C8_witness :
    WF sampleA 1 ([3] ++ [4]) ∧ 6 ∉ 1 :: ([3] ++ [4]) ∧
    insert sampleA 1 6 = (push_back sampleA 1 6, 6) :=
  ⟨by decide, by decide,
    (C8_insert_end_push_back sampleA 1 6 [3] [4] (by decide) (by decide)).1⟩

/-- C3: erase at a valid position unlinks exactly the element there,
keeping every other linked flag, and returns the iterator to the element
that followed it, which is the end iterator when the erased element was
last. -/
theorem C3_erase_spec (h : Heap) (s x : Nat) (l1 l2 : List Nat)
    (hwf : WF h s (l1 ++ x :: l2)) :
    (erase h x).2 = headOf s l2 ∧
    ((erase h x).1 x).linked = false ∧
    isRing (erase h x).1 s (l1 ++ l2) ∧
    ∀ y, y ≠ x → ((erase h x).1 y).linked = (h y).linked := by
  obtain ⟨hring, hnd, -⟩ := hwf
  obtain ⟨hring2, hflags, hprev, hnext⟩ := unlink_spec h s x l1 l2 hring hnd
  refine ⟨hnext, ?_, hring2, ?_⟩
  · show (unlink h x x).linked = false
    rw [hflags, if_pos rfl]
  · intro y hy
    show (unlink h x y).linked = (h y).linked
    rw [hflags, if_neg hy]

/-- C3 witness: erasing the first element of the concrete list returns an
iterator to the second element. -/
theorem C3_witness :
    WF sampleA 1 ([] ++ 3 :: [4]) ∧ (erase sampleA 3).2 = 4 :=
  ⟨by decide, (C3_erase_spec sampleA 1 3 [] [4] (by decide)).1⟩

/-- C5: the linked flag is false on a fresh node, true immediately after
push_back, push_front or insert link a node, false immediately after
unlink, pop_front, pop_back or erase remove one, and true for every element
of a well-formed list. -/
theorem C5_is_linked_lifecycle (h : Heap) (s x p : Nat) (xs : List Nat)
    (hwf : WF h s xs) :
    is_linked (fun _ => Node.init) x = false ∧
    is_linked (push_back h s x) x = true ∧
    is_linked (push_front h s x) x = true ∧
    is_linked (insert h p x).1 x = true ∧
    is_linked (unlink h x) x = false ∧
    is_linked (pop_front h s) ((h s).next) = false ∧
    is_linked (pop_back h s) ((h s).prev) = false ∧
    is_linked (erase h p).1 p = false ∧
    ∀ y ∈ xs, is_linked h y = true := by
  refine ⟨rfl, ?_, ?_, ?_, ?_, ?_, ?_, ?_, ?_⟩
  · show (insert_before h s x x).linked = true
    rw [insert_before, link_between_linked, if_pos rfl]
  · show (insert_after h s x x).linked = true
    rw [insert_after, link_between_linked, if_pos rfl]
  · show (insert_before h p x x).linked = true
    rw [insert_before, link_between_linked, if_pos rfl]
  · show (unlink h x x).linked = false
    rw [unlink_linked, if_pos rfl]
  · show (unlink h ((h s).next) ((h s).next)).linked = false
    rw [unlink_linked, if_pos rfl]
  · show (unlink h ((h s).prev) ((h s).prev)).linked = false
    rw [unlink_linked, if_pos rfl]
  · show (unlink h p p).linked = false
    rw [unlink_linked, if_pos rfl]
  · exact fun y hy => hwf.2.2 y hy

/-- C5 witness: the lifecycle facts at the concrete list, in particular a
push makes the pushed node linked. -/
theorem C5_witness :
    WF sampleA 1 [3, 4] ∧ is_linked (push_back sampleA 1 7) 7 = true :=
  ⟨by decide, (C5_is_linked_lifecycle sampleA 1 7 3 [3, 4] (by decide)).2.1⟩

/-- C6: destroying a node still linked in a well-formed list fires the
debug diagnostic, auto-unlinks it, and leaves the remaining ring
consistent: forward traversal immediately afterwards yields the previous
sequence minus the destroyed element. -/
theorem C6_destructor_autounlink (h : Heap) (s x : Nat) (l1 l2 : List Nat)
    (hwf : WF h s (l1 ++ x :: l2)) :
    (node_destructor h x).2 = true ∧
    isRing (node_destructor h x).1 s (l1 ++ l2) ∧
    ∀ fuel, (l1 ++ l2).length ≤ fuel →
      travNext (node_destructor h x).1 s
        (beginIt (node_destructor h x).1 s) fuel = l1 ++ l2 := by
  obtain ⟨hring, hnd, hflags⟩ := hwf
  have hx : (h x).linked = true := hflags x (by simp)
  have hdes : node_destructor h x = (unlink h x, true) := by
    rw [node_destructor, if_pos hx]
  obtain ⟨hring2, hfl2, -, -⟩ := unlink_spec h s x l1 l2 hring hnd
  obtain ⟨hnd2, hxnotin⟩ := nodup_mid hnd
  have hwf2 : WF (unlink h x) s (l1 ++ l2) := by
    refine ⟨hring2, hnd2, fun y hy => ?_⟩
    rw [hfl2, if_neg ?_]
    · refine hflags y ?_
      rcases List.mem_append.mp hy with hy | hy
      · exact List.mem_append_left _ hy
      · exact List.mem_append_right _ (List.mem_cons_of_mem x hy)
    · intro hc
      exact hxnotin (hc ▸ List.mem_cons_of_mem s hy)
  rw [hdes]
  exact ⟨rfl, hring2, fun fuel hfuel => travNext_ring hwf2 hfuel⟩

/-- C6 witness: destroying the linked node 3 warns and the remaining list
traverses to exactly the other element. -/
theorem C6_witness :
    WF sampleA 1 ([] ++ 3 :: [4]) ∧ (node_destructor sampleA 3).2 = true :=
  ⟨by decide, (C6_destructor_autounlink sampleA 1 3 [] [4] (by decide)).1⟩

/-- C7: try_pop_front and try_pop_back return a null pointer and leave the
heap untouched on an empty list; on a non-empty list they unlink and return
the first, respectively the last, element, whose linked flag is then
false, keeping every other flag. -/
theorem C7_try_pop (h : Heap) (s : Nat) (xs : List Nat) (hwf : WF h s xs) :
    (xs = [] → try_pop_front h s = (h, none) ∧ try_pop_back h s = (h, none)) ∧
    (∀ x xs2, xs = x :: xs2 →
      (try_pop_front h s).2 = some x ∧
      ((try_pop_front h s).1 x).linked = false ∧
      isRing (try_pop_front h s).1 s xs2 ∧
      ∀ y, y ≠ x → ((try_pop_front h s).1 y).linked = (h y).linked) ∧
    (∀ xs1 x, xs = xs1 ++ [x] →
      (try_pop_back h s).2 = some x ∧
      ((try_pop_back h s).1 x).linked = false ∧
      isRing (try_pop_back h s).1 s xs1 ∧
      ∀ y, y ≠ x → ((try_pop_back h s).1 y).linked = (h y).linked) := by
  obtain ⟨hring, hnd, hflags⟩ := hwf
  refine ⟨?_, ?_, ?_⟩
  · rintro rfl
    have hempty : emptyList h s = true := by
      have : (h s).next = s := by simpa using hring.2.1
      simp [emptyList, this]
    rw [try_pop_front, try_pop_back, if_pos hempty, if_pos hempty]
    exact ⟨rfl, rfl⟩
  · rintro x xs2 rfl
    have hbegin : (h s).next = x :=
      openSeg_next_headOf hring.1 hring.2.1
    have hxs : x ≠ s := by
      intro hc
      exact (List.nodup_cons.mp hnd).1 (hc ▸ List.mem_cons_self x xs2)
    have hempty : emptyList h s = false := by
      simp [emptyList, hbegin, hxs]
    have hpop : try_pop_front h s = (unlink h x, some x) := by
      rw [try_pop_front, if_neg (by simp [hempty]), hbegin, pop_front, hbegin]
    obtain ⟨hring2, hfl2, -, -⟩ :=
      unlink_spec h s x [] xs2 hring hnd
    rw [hpop]
    refine ⟨rfl, by rw [hfl2, if_pos rfl], hring2, fun y hy => ?_⟩
    rw [hfl2, if_neg hy]
  · rintro xs1 x rfl
    have hlastx : (h s).prev = x := by
      have := hring.2.2
      rwa [lastOf_concat] at this
    have hne : headOf s (xs1 ++ [x]) ≠ s := by
      intro hc
      refine (List.nodup_cons.mp hnd).1 ?_
      rw [← hc]
      have : headOf s (xs1 ++ [x]) ∈ s :: (xs1 ++ [x]) :=
        headOf_mem s (xs1 ++ [x])
      rcases List.mem_cons.mp this with hm | hm
      · cases xs1 <;> simp_all
      · exact hm
    have hempty : emptyList h s = false := by
      have hb : (h s).next = headOf s (xs1 ++ [x]) :=
        openSeg_next_headOf hring.1 hring.2.1
      simp [emptyList, hb, hne]
    have hpop : try_pop_back h s = (unlink h x, some x) := by
      rw [try_pop_back, if_neg (by simp [hempty]), hlastx, pop_back, hlastx]
    obtain ⟨hring2, hfl2, -, -⟩ :=
      unlink_spec h s x xs1 [] hring hnd
    rw [hpop]
    rw [List.append_nil] at hring2
    refine ⟨rfl, by rw [hfl2, if_pos rfl], hring2, fun y hy => ?_⟩
    rw [hfl2, if_neg hy]

/-- C7 witness: on the concrete one-element list, try_pop_front returns the
element, and on the emptied list it returns the null pointer. -/
theorem C7_witness :
    WF sampleAB 2 [5] ∧ (try_pop_front sampleAB 2).2 = some 5 :=
  ⟨by decide, ((C7_try_pop sampleAB 2 [5] (by decide)).2.1 5 [] rfl).1⟩

/-- C9: unlink changes only the unlinked element: its list loses exactly
that element, every other linked flag is unchanged, a disjoint second list
is untouched, and every node other than the two rewired neighbors keeps its
whole record. -/
theorem C9_unlink_only_x (h : Heap) (sA sB x : Nat) (l1 l2 bs : List Nat)
    (hwfA : WF h sA (l1 ++ x :: l2)) (hwfB : WF h sB bs)
    (hdisj : ∀ u ∈ sA :: (l1 ++ x :: l2), ∀ v ∈ sB :: bs, u ≠ v) :
    isRing (unlink h x) sA (l1 ++ l2) ∧
    ((unlink h x) x).linked = false ∧
    (∀ y, y ≠ x → ((unlink h x) y).linked = (h y).linked) ∧
    isRing (unlink h x) sB bs ∧
    ∀ y, y ≠ lastOf sA l1 → y ≠ headOf sA l2 → y ≠ x →
      unlink h x y = h y := by
  obtain ⟨hringA, hndA, -⟩ := hwfA
  obtain ⟨hres, hflags, hprev, hnext⟩ := unlink_spec h sA x l1 l2 hringA hndA
  have hframe : ∀ y, y ≠ lastOf sA l1 → y ≠ headOf sA l2 → y ≠ x →
      unlink h x y = h y := by
    intro y h1 h2 h3
    exact unlink_frame h x y (by rw [hprev]; exact h1)
      (by rw [hnext]; exact h2) h3
  have hlast_mem : lastOf sA l1 ∈ sA :: (l1 ++ x :: l2) := by
    rcases List.mem_cons.mp (lastOf_mem sA l1) with hm | hm
    · simp [hm]
    · simp [List.mem_cons, List.mem_append, hm]
  have hhead_mem : headOf sA l2 ∈ sA :: (l1 ++ x :: l2) := by
    rcases List.mem_cons.mp (headOf_mem sA l2) with hm | hm
    · simp [hm]
    · simp [List.mem_cons, List.mem_append, hm]
  refine ⟨hres, by rw [hflags, if_pos rfl],
    fun y hy => by rw [hflags, if_neg hy], ?_, hframe⟩
  refine isRing_frame (fun y hy => ?_) hwfB.1
  refine hframe y ?_ ?_ ?_
  · intro hc
    exact hdisj _ hlast_mem y hy hc.symm
  · intro hc
    exact hdisj _ hhead_mem y hy hc.symm
  · intro hc
    exact hdisj x (by simp) y hy hc.symm

theorem headOf_take {cnt : Nat} (hc : 0 < cnt) (s : Nat) (xs : List Nat) :
    headOf s (xs.take cnt) = headOf s xs := by
  cases xs with
  | nil => simp
  | cons x xs =>
    cases cnt with
    | zero => omega
    | succ cnt => simp [List.take_succ_cons]

/-- The walk of extract_front over a list of length L with budget n stops
after exactly min n L steps, at the element of index min n L (the sentinel
when the whole list was walked). -/
theorem extract_walk_spec {h : Heap} {s : Nat} :
    ∀ (xs : List Nat) (a : Nat) (n : Nat),
    openSeg h a xs → (h (lastOf a xs)).next = s → (∀ x ∈ xs, x ≠ s) →
    extract_walk h s (headOf s xs) n =
      (headOf s (xs.drop (min n xs.length)), min n xs.length) := by
  intro xs
  induction xs with
  | nil =>
    intro a n _ _ _
    cases n <;> simp [extract_walk]
  | cons x xs ih =>
    intro a n hseg hclose hfree
    obtain ⟨h1, h2, h3⟩ := hseg
    cases n with
    | zero => simp [extract_walk]
    | succ n =>
      have hxnext : (h x).next = headOf s xs :=
        openSeg_next_headOf h3 (by simpa using hclose)
      rw [headOf_cons, extract_walk, if_neg (hfree x (by simp)), hxnext,
        ih x n h3 (by simpa using hclose)
          (fun y hy => hfree y (List.mem_cons_of_mem x hy))]
      simp only [List.length_cons, Nat.succ_min_succ, List.drop_succ_cons]

/-- C2: extract_front moves exactly the first min of the budget and the
source length elements to the tail of the out list, in order, leaves the
rest in the source in order, returns that count, and changes no linked
flag; in particular the count is 0 on an empty source or a zero budget. -/
theorem C2_extract_front (h : Heap) (s outS : Nat) (xs os : List Nat)
    (n : Nat) (hwfS : WF h s xs) (hwfO : WF h outS os)
    (hnd : (outS :: s :: (os ++ xs)).Nodup) :
    (extract_front h s outS n).2 = min n xs.length ∧
    isRing (extract_front h s outS n).1 outS
      (os ++ xs.take (min n xs.length)) ∧
    isRing (extract_front h s outS n).1 s (xs.drop (min n xs.length)) ∧
    ∀ y, ((extract_front h s outS n).1 y).linked = (h y).linked := by
  obtain ⟨hringS, hndS, hflS⟩ := hwfS
  obtain ⟨hringO, hndO, hflO⟩ := hwfO
  have hfree : ∀ x ∈ xs, x ≠ s :=
    fun x hx hc => (List.nodup_cons.mp hndS).1 (hc ▸ hx)
  have hbegin : (h s).next = headOf s xs :=
    openSeg_next_headOf hringS.1 hringS.2.1
  have hwalk : extract_walk h s (beginIt h s) n =
      (headOf s (xs.drop (min n xs.length)), min n xs.length) := by
    rw [beginIt, hbegin]
    exact extract_walk_spec xs s n hringS.1 hringS.2.1 hfree
  by_cases hcnt : 0 < min n xs.length
  · have htake_len : (xs.take (min n xs.length)).length = min n xs.length := by
      rw [List.length_take]
      omega
    have htake_ne : xs.take (min n xs.length) ≠ [] := by
      intro hc
      rw [hc] at htake_len
      simp at htake_len
      omega
    have hsplit : extract_front h s outS n =
        (transfer_range h (headOf outS ([] : List Nat))
          (headOf s (xs.take (min n xs.length)))
          (headOf s (xs.drop (min n xs.length))),
         min n xs.length) := by
      simp only [extract_front, hwalk, if_pos hcnt]
      rw [splice_range, beginIt, hbegin, headOf_nil,
        headOf_take hcnt]
    have hA : isRing h outS (os ++ []) := by
      rw [List.append_nil]; exact hringO
    have hB : isRing h s
        (([] : List Nat) ++ (xs.take (min n xs.length) ++
          xs.drop (min n xs.length))) := by
      rw [List.nil_append, List.take_append_drop]
      exact hringS
    have hnd2 : (outS :: s :: ((os ++ []) ++
        (([] : List Nat) ++ (xs.take (min n xs.length) ++
          xs.drop (min n xs.length))))).Nodup := by
      simpa [List.take_append_drop] using hnd
    obtain ⟨hro, hrs⟩ := transfer_range_spec h outS s os [] []
      (xs.take (min n xs.length)) (xs.drop (min n xs.length))
      htake_ne hA hB hnd2
    rw [hsplit]
    refine ⟨rfl, ?_, ?_, fun y => transfer_range_linked h _ _ _ y⟩
    · rw [List.append_nil] at hro
      exact hro
    · rw [List.nil_append] at hrs
      exact hrs
  · have hzero : min n xs.length = 0 := by omega
    have hstay : extract_front h s outS n = (h, 0) := by
      simp only [extract_front, hwalk, hzero]
      simp
    rw [hstay, hzero]
    refine ⟨rfl, ?_, ?_, fun y => rfl⟩
    · simpa using hringO
    · simpa using hringS

/-- C2 witness: extracting with a budget beyond the source length moves the
whole two-element source and returns 2. -/
theorem C2_witness :
    WF sampleAB 1 [3, 4] ∧ WF sampleAB 2 [5] ∧
    (extract_front sampleAB 1 2 5).2 = 2 :=
  ⟨by decide, by decide,
    (C2_extract_front sampleAB 1 2 [3, 4] [5] 5 (by decide) (by decide)
      (by decide)).1⟩

/-- C1: splice moves all of the other list to just before the given
position of this list, preserving the relative order of both, leaving the
other list empty and every linked flag unchanged; it is a no-op when the
other list is empty or when the other list is this same container. -/
theorem C1_splice (h : Heap) (sA sB : Nat) (a1 a2 bs : List Nat)
    (hwfA : WF h sA (a1 ++ a2)) (hwfB : WF h sB bs)
    (hnd : (sA :: sB :: ((a1 ++ a2) ++ bs)).Nodup) :
    (bs = [] → splice h (headOf sA a2) sA sB = h) ∧
    (∀ pos, splice h pos sB sB = h) ∧
    isRing (splice h (headOf sA a2) sA sB) sA (a1 ++ bs ++ a2) ∧
    isRing (splice h (headOf sA a2) sA sB) sB [] ∧
    ∀ y, ((splice h (headOf sA a2) sA sB) y).linked = (h y).linked := by
  have hselfsplice : ∀ pos, splice h pos sB sB = h := by
    intro pos
    rw [splice]
    split
    · rfl
    · rw [if_pos rfl]
  have hempty_case : emptyList h sB = true → splice h (headOf sA a2) sA sB = h := by
    intro he
    rw [splice, if_pos he]
  cases hbs : bs with
  | nil =>
    subst hbs
    have he : emptyList h sB = true := by
      have : (h sB).next = sB := by simpa using hwfB.1.2.1
      simp [emptyList, this]
    have hid := hempty_case he
    rw [hid]
    exact ⟨fun _ => rfl, hselfsplice,
      by simpa using hwfA.1, hwfB.1, fun y => rfl⟩
  | cons f bsx =>
    subst hbs
    have hbegin : (h sB).next = f :=
      openSeg_next_headOf hwfB.1.1 hwfB.1.2.1
    have hfnesB : f ≠ sB := by
      intro hc
      exact (List.nodup_cons.mp hwfB.2.1).1 (hc ▸ List.mem_cons_self f bsx)
    have he : emptyList h sB = false := by
      simp [emptyList, hbegin, hfnesB]
    have hsAB : sA ≠ sB := by
      rw [List.nodup_cons, List.mem_cons] at hnd
      exact fun hc => hnd.1 (Or.inl hc)
    have hrun : splice h (headOf sA a2) sA sB =
        transfer_range h (headOf sA a2) (headOf sB (f :: bsx))
          (headOf sB ([] : List Nat)) := by
      rw [splice, if_neg (by simp [he]), if_neg hsAB, splice_range,
        beginIt, hbegin, headOf_cons, headOf_nil]
    have hA := hwfA.1
    have hB : isRing h sB (([] : List Nat) ++ ((f :: bsx) ++ [])) := by
      simpa using hwfB.1
    have hnd2 : (sA :: sB :: ((a1 ++ a2) ++
        (([] : List Nat) ++ ((f :: bsx) ++ [])))).Nodup := by
      simpa using hnd
    obtain ⟨hra, hrb⟩ := transfer_range_spec h sA sB a1 a2 [] (f :: bsx) []
      (by simp) hA hB hnd2
    rw [hrun]
    refine ⟨fun hc => by simp at hc, hselfsplice,
      by rw [List.append_assoc]; exact hra, ?_,
      fun y => transfer_range_linked h _ _ _ y⟩
    simpa using hrb

/-- C1 witness: splicing the one-element second list before position 4 of
the first list yields the sequence 3, 5, 4. -/
theorem C1_witness :
    WF sampleAB 1 ([3] ++ [4]) ∧ WF sampleAB 2 [5] ∧
    isRing (splice sampleAB 4 1 2) 1 ([3] ++ [5] ++ [4]) :=
  ⟨by decide, by decide,
    (C1_splice sampleAB 1 2 [3] [4] [5] (by decide) (by decide)
      (by decide)).2.2.1⟩

/-- C9 witness: unlinking element 3 of the first concrete list leaves the
second list intact. -/
theorem C9_witness :
    WF sampleAB 1 ([] ++ 3 :: [4]) ∧ WF sampleAB 2 [5] ∧
    isRing (unlink sampleAB 3) 2 [5] :=
  ⟨by decide, by decide,
    (C9_unlink_only_x sampleAB 1 2 3 [] [4] [5] (by decide) (by decide)
      (by decide)).2.2.2.1⟩

/-! ### C4: arbitrary operation sequences preserve the ring invariant

A state holds one heap and two lists (their sentinels and intended element
sequences). Operations are the ones named by the claim, acting on list A,
with push_back into list B so that splice is exercised non-trivially.
Positions are element indices; the index equal to the length denotes the
end iterator. -/

structure TwoLists where
  heap : Heap
  sA : Nat
  sB : Nat
  elsA : List Nat
  elsB : List Nat

/-- The invariant: both rings well formed, all addresses pairwise distinct,
every element flagged linked. -/
def Inv (st : TwoLists) : Prop :=
  isRing st.heap st.sA st.elsA ∧ isRing st.heap st.sB st.elsB ∧
  (st.sA :: st.sB :: (st.elsA ++ st.elsB)).Nodup ∧
  ∀ x ∈ st.elsA ++ st.elsB, (st.heap x).linked = true

instance Inv.inst (st : TwoLists) : Decidable (Inv st) :=
  inferInstanceAs (Decidable (_ ∧ _ ∧ _ ∧ _))

inductive Op where
  | pushBackA (x : Nat)
  | pushFrontA (x : Nat)
  | insertA (i x : Nat)
  | eraseA (i : Nat)
  | popFrontA
  | popBackA
  | pushBackB (x : Nat)
  | spliceBA (i : Nat)

/-- The iterator of list A at element index i: the address of element i, or
the sentinel (the end iterator) when i is the length or beyond. -/
def posA (st : TwoLists) (i : Nat) : Nat := headOf st.sA (st.elsA.drop i)

/-- The precondition of each operation, mirroring the assertion of the
source: pushed elements are unlinked and are not a sentinel, erase and pop
need a valid element, positions are valid indices. -/
def preOp (st : TwoLists) : Op → Prop
  | .pushBackA x => (st.heap x).linked = false ∧ x ≠ st.sA ∧ x ≠ st.sB
  | .pushFrontA x => (st.heap x).linked = false ∧ x ≠ st.sA ∧ x ≠ st.sB
  | .insertA i x =>
      ((st.heap x).linked = false ∧ x ≠ st.sA ∧ x ≠ st.sB) ∧
      i ≤ st.elsA.length
  | .eraseA i => i < st.elsA.length
  | .popFrontA => st.elsA ≠ []
  | .popBackA => st.elsA ≠ []
  | .pushBackB x => (st.heap x).linked = false ∧ x ≠ st.sA ∧ x ≠ st.sB
  | .spliceBA i => i ≤ st.elsA.length

instance preOp.inst (st : TwoLists) (op : Op) : Decidable (preOp st op) := by
  cases op <;> (unfold preOp; infer_instance)

/-- Each operation applied through the source heap operations, paired with
the intended effect on the abstract element sequences. -/
def applyOp (st : TwoLists) : Op → TwoLists
  | .pushBackA x =>
      ⟨push_back st.heap st.sA x, st.sA, st.sB, st.elsA ++ [x], st.elsB⟩
  | .pushFrontA x =>
      ⟨push_front st.heap st.sA x, st.sA, st.sB, x :: st.elsA, st.elsB⟩
  | .insertA i x =>
      ⟨(insert st.heap (posA st i) x).1, st.sA, st.sB,
        st.elsA.take i ++ x :: st.elsA.drop i, st.elsB⟩
  | .eraseA i =>
      ⟨(erase st.heap (posA st i)).1, st.sA, st.sB,
        st.elsA.take i ++ st.elsA.drop (i + 1), st.elsB⟩
  | .popFrontA =>
      ⟨pop_front st.heap st.sA, st.sA, st.sB, st.elsA.drop 1, st.elsB⟩
  | .popBackA =>
      ⟨pop_back st.heap st.sA, st.sA, st.sB, st.elsA.dropLast, st.elsB⟩
  | .pushBackB x =>
      ⟨push_back st.heap st.sB x, st.sA, st.sB, st.elsA, st.elsB ++ [x]⟩
  | .spliceBA i =>
      ⟨splice st.heap (posA st i) st.sA st.sB, st.sA, st.sB,
        st.elsA.take i ++ st.elsB ++ st.elsA.drop i, []⟩

def applyAll (st : TwoLists) : List Op → TwoLists
  | [] => st
  | op :: ops => applyAll (applyOp st op) ops

def preAll (st : TwoLists) : List Op → Prop
  | [] => True
  | op :: ops => preOp st op ∧ preAll (applyOp st op) ops

instance preAll.inst (st : TwoLists) : (ops : List Op) →
    Decidable (preAll st ops)
  | [] => Decidable.isTrue trivial
  | op :: ops =>
    have : Decidable (preAll (applyOp st op) ops) :=
      preAll.inst (applyOp st op) ops
    inferInstanceAs (Decidable (_ ∧ _))

/-! Bookkeeping lemmas for the invariant preservation proof. -/

theorem lastOf_mem_left (s : Nat) (l1 l2 : List Nat) :
    lastOf s l1 ∈ s :: (l1 ++ l2) := by
  rcases List.mem_cons.mp (lastOf_mem s l1) with hm | hm
  · simp [hm]
  · simp [List.mem_cons, List.mem_append, hm]

theorem headOf_mem_right (s : Nat) (l1 l2 : List Nat) :
    headOf s l2 ∈ s :: (l1 ++ l2) := by
  rcases List.mem_cons.mp (headOf_mem s l2) with hm | hm
  · simp [hm]
  · simp [List.mem_cons, List.mem_append, hm]

theorem nodup_reshape_insertA {sA sB x : Nat} {l1 l2 lb : List Nat}
    (hnd : (sA :: sB :: ((l1 ++ l2) ++ lb)).Nodup)
    (hx : x ∉ l1 ++ l2) (hxB : x ∉ lb) (h1 : x ≠ sA) (h2 : x ≠ sB) :
    (sA :: sB :: ((l1 ++ x :: l2) ++ lb)).Nodup := by
  have hperm : (sA :: sB :: ((l1 ++ x :: l2) ++ lb)).Perm
      (sA :: sB :: (x :: ((l1 ++ l2) ++ lb))) := by
    refine List.Perm.cons sA (List.Perm.cons sB ?_)
    have p1 : ((l1 ++ x :: l2) ++ lb).Perm ((x :: (l1 ++ l2)) ++ lb) :=
      List.Perm.append_right lb List.perm_middle
    have p2 : (x :: (l1 ++ l2)) ++ lb = x :: ((l1 ++ l2) ++ lb) := by simp
    exact p2 ▸ p1
  refine hperm.symm.nodup ?_
  refine List.nodup_cons.mpr ⟨?_, List.nodup_cons.mpr ⟨?_, ?_⟩⟩
  · have := (List.nodup_cons.mp hnd).1
    intro hm
    rcases List.mem_cons.mp hm with hm | hm
    · exact this (by simp [hm])
    · rcases List.mem_cons.mp hm with hm | hm
      · exact h1 hm.symm
      · exact this (List.mem_cons_of_mem sB hm)
  · have := (List.nodup_cons.mp ((List.nodup_cons.mp hnd).2)).1
    intro hm
    rcases List.mem_cons.mp hm with hm | hm
    · exact h2 hm.symm
    · exact this hm
  · refine List.nodup_cons.mpr ⟨?_, ?_⟩
    · intro hm
      rcases List.mem_append.mp hm with hm | hm
      · exact hx hm
      · exact hxB hm
    · exact (List.nodup_cons.mp ((List.nodup_cons.mp hnd).2)).2

theorem nodup_reshape_insertB {sA sB x : Nat} {la lb : List Nat}
    (hnd : (sA :: sB :: (la ++ lb)).Nodup)
    (hxA : x ∉ la) (hxB : x ∉ lb) (h1 : x ≠ sA) (h2 : x ≠ sB) :
    (sA :: sB :: (la ++ (lb ++ [x]))).Nodup := by
  have hperm : (sA :: sB :: (la ++ (lb ++ [x]))).Perm
      (sA :: sB :: (x :: (la ++ lb))) := by
    refine List.Perm.cons sA (List.Perm.cons sB ?_)
    have p1 : (la ++ (lb ++ [x])).Perm ((la ++ lb) ++ [x]) := by
      rw [List.append_assoc]
    have p2 : ((la ++ lb) ++ [x]).Perm ([x] ++ (la ++ lb)) :=
      List.perm_append_comm
    have p3 : ([x] ++ (la ++ lb)) = x :: (la ++ lb) := by simp
    exact p3 ▸ (p1.trans p2)
  refine hperm.symm.nodup ?_
  refine List.nodup_cons.mpr ⟨?_, List.nodup_cons.mpr ⟨?_, ?_⟩⟩
  · have := (List.nodup_cons.mp hnd).1
    intro hm
    rcases List.mem_cons.mp hm with hm | hm
    · exact this (by simp [hm])
    · rcases List.mem_cons.mp hm with hm | hm
      · exact h1 hm.symm
      · exact this (List.mem_cons_of_mem sB hm)
  · have := (List.nodup_cons.mp ((List.nodup_cons.mp hnd).2)).1
    intro hm
    rcases List.mem_cons.mp hm with hm | hm
    · exact h2 hm.symm
    · exact this hm
  · refine List.nodup_cons.mpr ⟨?_, ?_⟩
    · intro hm
      rcases List.mem_append.mp hm with hm | hm
      · exact hxA hm
      · exact hxB hm
    · exact (List.nodup_cons.mp ((List.nodup_cons.mp hnd).2)).2

theorem nodup_shrinkA {sA sB : Nat} {la la2 lb : List Nat}
    (hnd : (sA :: sB :: (la ++ lb)).Nodup) (hsub : la2.Sublist la) :
    (sA :: sB :: (la2 ++ lb)).Nodup :=
  List.Nodup.sublist
    (List.Sublist.cons₂ sA (List.Sublist.cons₂ sB
      (List.Sublist.append hsub (List.Sublist.refl lb)))) hnd

theorem nodup_reshape_splice {sA sB : Nat} {l1 l2 lb : List Nat}
    (hnd : (sA :: sB :: ((l1 ++ l2) ++ lb)).Nodup) :
    (sA :: sB :: ((l1 ++ lb ++ l2) ++ ([] : List Nat))).Nodup := by
  rw [List.append_nil]
  refine (List.Perm.cons sA (List.Perm.cons sB ?_)).nodup hnd
  have p : ((l1 ++ l2) ++ lb).Perm (l1 ++ (lb ++ l2)) := by
    rw [List.append_assoc]
    exact List.Perm.append_left l1 List.perm_append_comm
  have p2 : l1 ++ (lb ++ l2) = (l1 ++ lb) ++ l2 := by
    rw [List.append_assoc]
  exact p2 ▸ p

theorem mem_ins_split {y x : Nat} {l1 l2 lb : List Nat}
    (hy : y ∈ (l1 ++ x :: l2) ++ lb) : y = x ∨ y ∈ (l1 ++ l2) ++ lb := by
  simp only [List.mem_append, List.mem_cons] at hy ⊢
  tauto

theorem mem_unins_split {y x : Nat} {l1 l2 lb : List Nat}
    (hy : y ∈ (l1 ++ l2) ++ lb) : y ∈ (l1 ++ x :: l2) ++ lb := by
  simp only [List.mem_append, List.mem_cons] at hy ⊢
  tauto

theorem mem_splice_split {y : Nat} {l1 l2 lb : List Nat}
    (hy : y ∈ (l1 ++ lb ++ l2) ++ ([] : List Nat)) :
    y ∈ (l1 ++ l2) ++ lb := by
  simp only [List.mem_append, List.not_mem_nil, or_false] at hy ⊢
  tauto

/-- Generic invariant preservation for an insertion into list A before the
position that starts the suffix l2. -/
theorem Inv_insert_generic (h : Heap) (sA sB x : Nat) (l1 l2 lb : List Nat)
    (hrA : isRing h sA (l1 ++ l2)) (hrB : isRing h sB lb)
    (hnd : (sA :: sB :: ((l1 ++ l2) ++ lb)).Nodup)
    (hfl : ∀ y ∈ (l1 ++ l2) ++ lb, (h y).linked = true)
    (hxfl : (h x).linked = false) (hxsA : x ≠ sA) (hxsB : x ≠ sB) :
    isRing (insert_before h (headOf sA l2) x) sA (l1 ++ x :: l2) ∧
    isRing (insert_before h (headOf sA l2) x) sB lb ∧
    (sA :: sB :: ((l1 ++ x :: l2) ++ lb)).Nodup ∧
    ∀ y ∈ (l1 ++ x :: l2) ++ lb,
      ((insert_before h (headOf sA l2) x) y).linked = true := by
  obtain ⟨hndA, hndB, hdAB⟩ := nodup_two hnd
  have hxA : x ∉ sA :: (l1 ++ l2) := by
    intro hm
    rcases List.mem_cons.mp hm with hm | hm
    · exact hxsA hm
    · rw [hfl x (List.mem_append_left _ hm)] at hxfl
      exact Bool.noConfusion hxfl
  have hxB : x ∉ sB :: lb := by
    intro hm
    rcases List.mem_cons.mp hm with hm | hm
    · exact hxsB hm
    · rw [hfl x (List.mem_append_right _ hm)] at hxfl
      exact Bool.noConfusion hxfl
  obtain ⟨hring2, hflag2, hprev⟩ := insert_before_spec h sA x l1 l2 hrA hndA hxA
  refine ⟨hring2, ?_, ?_, ?_⟩
  · refine isRing_frame (fun y hy => ?_) hrB
    refine insert_before_frame h (headOf sA l2) x y ?_ ?_ ?_
    · rw [hprev]
      intro hc
      exact hdAB _ (lastOf_mem_left sA l1 l2) y hy hc.symm
    · intro hc
      exact hdAB _ (headOf_mem_right sA l1 l2) y hy hc.symm
    · intro hc
      exact hxB (hc ▸ hy)
  · refine nodup_reshape_insertA hnd ?_ ?_ hxsA hxsB
    · exact fun hm => hxA (List.mem_cons_of_mem sA hm)
    · exact fun hm => hxB (List.mem_cons_of_mem sB hm)
  · intro y hy
    rw [hflag2 y]
    rcases mem_ins_split hy with hy2 | hy2
    · rw [if_pos hy2]
    · rw [if_neg ?_]
      · exact hfl y hy2
      · intro hc
        subst hc
        rcases List.mem_append.mp hy2 with hm | hm
        · exact hxA (List.mem_cons_of_mem sA hm)
        · exact hxB (List.mem_cons_of_mem sB hm)

/-- Generic invariant preservation for a push_back into list B. -/
theorem Inv_insert_genericB (h : Heap) (sA sB x : Nat) (la lb : List Nat)
    (hrA : isRing h sA la) (hrB : isRing h sB lb)
    (hnd : (sA :: sB :: (la ++ lb)).Nodup)
    (hfl : ∀ y ∈ la ++ lb, (h y).linked = true)
    (hxfl : (h x).linked = false) (hxsA : x ≠ sA) (hxsB : x ≠ sB) :
    isRing (push_back h sB x) sA la ∧
    isRing (push_back h sB x) sB (lb ++ [x]) ∧
    (sA :: sB :: (la ++ (lb ++ [x]))).Nodup ∧
    ∀ y ∈ la ++ (lb ++ [x]), ((push_back h sB x) y).linked = true := by
  obtain ⟨hndA, hndB, hdAB⟩ := nodup_two hnd
  have hxA : x ∉ sA :: la := by
    intro hm
    rcases List.mem_cons.mp hm with hm | hm
    · exact hxsA hm
    · rw [hfl x (List.mem_append_left _ hm)] at hxfl
      exact Bool.noConfusion hxfl
  have hxB : x ∉ sB :: lb := by
    intro hm
    rcases List.mem_cons.mp hm with hm | hm
    · exact hxsB hm
    · rw [hfl x (List.mem_append_right _ hm)] at hxfl
      exact Bool.noConfusion hxfl
  have hrB2 : isRing h sB (lb ++ ([] : List Nat)) := by
    rw [List.append_nil]; exact hrB
  have hndB2 : (sB :: (lb ++ ([] : List Nat))).Nodup := by
    rw [List.append_nil]; exact hndB
  have hxB2 : x ∉ sB :: (lb ++ ([] : List Nat)) := by
    rw [List.append_nil]; exact hxB
  obtain ⟨hring2, hflag2, hprev⟩ :=
    insert_before_spec h sB x lb [] hrB2 hndB2 hxB2
  simp only [headOf_nil] at hring2 hflag2 hprev
  refine ⟨?_, hring2, ?_, ?_⟩
  · refine isRing_frame (fun y hy => ?_) hrA
    refine insert_before_frame h sB x y ?_ ?_ ?_
    · rw [hprev]
      intro hc
      exact hdAB y hy _ (by simpa using lastOf_mem_left sB lb []) hc
    · intro hc
      exact hdAB y hy sB (List.mem_cons_self sB lb) hc
    · intro hc
      exact hxA (hc ▸ hy)
  · exact nodup_reshape_insertB hnd
      (fun hm => hxA (List.mem_cons_of_mem sA hm))
      (fun hm => hxB (List.mem_cons_of_mem sB hm)) hxsA hxsB
  · intro y hy
    show (insert_before h sB x y).linked = true
    rw [hflag2 y]
    by_cases hyx : y = x
    · rw [if_pos hyx]
    · rw [if_neg hyx]
      refine hfl y ?_
      simp only [List.mem_append, List.mem_cons, List.not_mem_nil,
        or_false] at hy ⊢
      rcases hy with hy | hy | hy
      · exact Or.inl hy
      · exact Or.inr hy
      · exact absurd (by simpa using hy) hyx

/-- Generic invariant preservation for unlinking the element x splitting
list A as l1, x, l2. -/
theorem Inv_unlink_generic (h : Heap) (sA sB x : Nat) (l1 l2 lb : List Nat)
    (hrA : isRing h sA (l1 ++ x :: l2)) (hrB : isRing h sB lb)
    (hnd : (sA :: sB :: ((l1 ++ x :: l2) ++ lb)).Nodup)
    (hfl : ∀ y ∈ (l1 ++ x :: l2) ++ lb, (h y).linked = true) :
    isRing (unlink h x) sA (l1 ++ l2) ∧
    isRing (unlink h x) sB lb ∧
    (sA :: sB :: ((l1 ++ l2) ++ lb)).Nodup ∧
    ∀ y ∈ (l1 ++ l2) ++ lb, ((unlink h x) y).linked = true := by
  obtain ⟨hndA, hndB, hdAB⟩ := nodup_two hnd
  obtain ⟨hring2, hflag2, hprev, hnext⟩ := unlink_spec h sA x l1 l2 hrA hndA
  obtain ⟨hndA2, hxnotin⟩ := nodup_mid hndA
  refine ⟨hring2, ?_, ?_, ?_⟩
  · refine isRing_frame (fun y hy => ?_) hrB
    refine unlink_frame h x y ?_ ?_ ?_
    · rw [hprev]
      intro hc
      exact hdAB _ (lastOf_mem_left sA l1 (x :: l2)) y hy hc.symm
    · rw [hnext]
      intro hc
      refine hdAB (headOf sA l2) ?_ y hy hc.symm
      rcases List.mem_cons.mp (headOf_mem sA l2) with hm | hm
      · simp [hm]
      · simp [List.mem_cons, List.mem_append, hm]
    · intro hc
      exact hdAB x (by simp) y hy hc.symm
  · exact nodup_shrinkA hnd
      (List.Sublist.append_left (List.sublist_cons_self x l2) l1)
  · intro y hy
    rw [hflag2 y, if_neg ?_]
    · exact hfl y (mem_unins_split hy)
    · intro hc
      subst hc
      rcases List.mem_append.mp hy with hm | hm
      · exact hxnotin (List.mem_cons_of_mem sA hm)
      · exact hdAB y (by simp) y (List.mem_cons_of_mem sB hm) rfl

/-- Generic invariant preservation for splicing all of list B into list A
before the position that starts the suffix l2. -/
theorem Inv_splice_generic (h : Heap) (sA sB : Nat) (l1 l2 lb : List Nat)
    (hrA : isRing h sA (l1 ++ l2)) (hrB : isRing h sB lb)
    (hnd : (sA :: sB :: ((l1 ++ l2) ++ lb)).Nodup)
    (hfl : ∀ y ∈ (l1 ++ l2) ++ lb, (h y).linked = true) :
    isRing (splice h (headOf sA l2) sA sB) sA (l1 ++ lb ++ l2) ∧
    isRing (splice h (headOf sA l2) sA sB) sB [] ∧
    (sA :: sB :: ((l1 ++ lb ++ l2) ++ ([] : List Nat))).Nodup ∧
    ∀ y ∈ (l1 ++ lb ++ l2) ++ ([] : List Nat),
      ((splice h (headOf sA l2) sA sB) y).linked = true := by
  obtain ⟨hndA, hndB, hdAB⟩ := nodup_two hnd
  have hndgoal := nodup_reshape_splice hnd
  cases hlb : lb with
  | nil =>
    subst hlb
    have he : emptyList h sB = true := by
      have : (h sB).next = sB := by simpa using hrB.2.1
      simp [emptyList, this]
    have hid : splice h (headOf sA l2) sA sB = h := by
      rw [splice, if_pos he]
    rw [hid]
    refine ⟨by simpa using hrA, hrB, by simpa using hndgoal, ?_⟩
    intro y hy
    exact hfl y (mem_splice_split hy)
  | cons f bsx =>
    subst hlb
    have hbegin : (h sB).next = f :=
      openSeg_next_headOf hrB.1 hrB.2.1
    have hfnesB : f ≠ sB := by
      intro hc
      exact (List.nodup_cons.mp hndB).1 (hc ▸ List.mem_cons_self f bsx)
    have he : emptyList h sB = false := by
      simp [emptyList, hbegin, hfnesB]
    have hsAB : sA ≠ sB := by
      rw [List.nodup_cons, List.mem_cons] at hnd
      exact fun hc => hnd.1 (Or.inl hc)
    have hrun : splice h (headOf sA l2) sA sB =
        transfer_range h (headOf sA l2) (headOf sB (f :: bsx))
          (headOf sB ([] : List Nat)) := by
      rw [splice, if_neg (by simp [he]), if_neg hsAB, splice_range,
        beginIt, hbegin, headOf_cons, headOf_nil]
    have hB2 : isRing h sB (([] : List Nat) ++ ((f :: bsx) ++ [])) := by
      simpa using hrB
    have hnd2 : (sA :: sB :: ((l1 ++ l2) ++
        (([] : List Nat) ++ ((f :: bsx) ++ [])))).Nodup := by
      simpa using hnd
    obtain ⟨hra, hrb⟩ := transfer_range_spec h sA sB l1 l2 [] (f :: bsx) []
      (by simp) hrA hB2 hnd2
    rw [hrun]
    refine ⟨by rw [List.append_assoc]; exact hra, by simpa using hrb,
      hndgoal, ?_⟩
    intro y hy
    rw [transfer_range_linked]
    exact hfl y (mem_splice_split hy)

theorem isRing_prev_head {h : Heap} {s : Nat} {xs : List Nat}
    (hr : isRing h s xs) : (h (headOf s xs)).prev = s := by
  cases xs with
  | nil => simpa using hr.2.2
  | cons e es => exact hr.1.2.1

/-- Every operation with its precondition preserves the two-list
invariant. -/
theorem Inv_applyOp (st : TwoLists) (op : Op) (hInv : Inv st)
    (hpre : preOp st op) : Inv (applyOp st op) := by
  obtain ⟨h, sA, sB, elsA, elsB⟩ := st
  obtain ⟨hrA, hrB, hnd, hfl⟩ := hInv
  cases op with
  | pushBackA x =>
    obtain ⟨hxfl, hxsA, hxsB⟩ := hpre
    have hgen := Inv_insert_generic h sA sB x elsA [] elsB
      (by rw [List.append_nil]; exact hrA) hrB
      (by rw [List.append_nil]; exact hnd)
      (by rw [List.append_nil]; exact hfl) hxfl hxsA hxsB
    simp only [headOf_nil] at hgen
    exact hgen
  | pushFrontA x =>
    obtain ⟨hxfl, hxsA, hxsB⟩ := hpre
    have hgen := Inv_insert_generic h sA sB x [] elsA elsB
      (by rw [List.nil_append]; exact hrA) hrB
      (by rw [List.nil_append]; exact hnd)
      (by rw [List.nil_append]; exact hfl) hxfl hxsA hxsB
    have hnext : (h sA).next = headOf sA elsA :=
      openSeg_next_headOf hrA.1 hrA.2.1
    have hprev : (h (headOf sA elsA)).prev = sA := isRing_prev_head hrA
    have heq : push_front h sA x = insert_before h (headOf sA elsA) x := by
      rw [push_front, insert_after, insert_before, hprev, hnext]
    show Inv ⟨push_front h sA x, sA, sB, x :: elsA, elsB⟩
    rw [heq]
    exact hgen
  | insertA i x =>
    obtain ⟨⟨hxfl, hxsA, hxsB⟩, hlen⟩ := hpre
    have hgen := Inv_insert_generic h sA sB x (elsA.take i) (elsA.drop i) elsB
      (by rw [List.take_append_drop]; exact hrA) hrB
      (by rw [List.take_append_drop]; exact hnd)
      (by rw [List.take_append_drop]; exact hfl) hxfl hxsA hxsB
    exact hgen
  | eraseA i =>
    have hi : i < elsA.length := hpre
    cases hd : elsA.drop i with
    | nil =>
      exfalso
      have := List.length_drop i elsA
      rw [hd] at this
      simp at this
      omega
    | cons e rest =>
      have hrest : rest = elsA.drop (i + 1) := by
        have hdd : (elsA.drop i).drop 1 = elsA.drop (i + 1) :=
          List.drop_drop 1 i elsA
        rw [hd] at hdd
        simpa using hdd
      subst hrest
      have hsplitA : elsA = elsA.take i ++ e :: elsA.drop (i + 1) := by
        conv_lhs => rw [← List.take_append_drop i elsA]
        rw [hd]
      have hpos : posA ⟨h, sA, sB, elsA, elsB⟩ i = e := by
        show headOf sA (elsA.drop i) = e
        rw [hd, headOf_cons]
      rw [hsplitA] at hrA hnd hfl
      have hgen := Inv_unlink_generic h sA sB e (elsA.take i)
        (elsA.drop (i + 1)) elsB hrA hrB hnd hfl
      show Inv ⟨(erase h (posA ⟨h, sA, sB, elsA, elsB⟩ i)).1, sA, sB,
        elsA.take i ++ elsA.drop (i + 1), elsB⟩
      rw [hpos]
      exact hgen
  | popFrontA =>
    have hne : elsA ≠ [] := hpre
    cases elsA with
    | nil => exact absurd rfl hne
    | cons e rest =>
      have hb : (h sA).next = e :=
        openSeg_next_headOf hrA.1 hrA.2.1
      have heq : pop_front h sA = unlink h e := by
        rw [pop_front, hb]
      have hgen := Inv_unlink_generic h sA sB e [] rest elsB
        (by rw [List.nil_append]; exact hrA) hrB
        (by rw [List.nil_append]; exact hnd)
        (by rw [List.nil_append]; exact hfl)
      show Inv ⟨pop_front h sA, sA, sB, (e :: rest).drop 1, elsB⟩
      rw [heq]
      exact hgen
  | popBackA =>
    have hne : elsA ≠ [] := hpre
    have hql : lastOf sA elsA = elsA.getLast hne := by
      rw [lastOf_eq_getLast]
      exact List.getLast_cons hne
    have hsplit : elsA.dropLast ++ [lastOf sA elsA] = elsA := by
      rw [hql]
      exact List.dropLast_append_getLast hne
    have heq : pop_back h sA = unlink h (lastOf sA elsA) := by
      rw [pop_back, hrA.2.2]
    rw [← hsplit] at hrA hnd hfl
    have hgen := Inv_unlink_generic h sA sB (lastOf sA elsA)
      elsA.dropLast [] elsB hrA hrB hnd hfl
    obtain ⟨g1, g2, g3, g4⟩ := hgen
    rw [List.append_nil] at g1 g3 g4
    show Inv ⟨pop_back h sA, sA, sB, elsA.dropLast, elsB⟩
    rw [heq]
    exact ⟨g1, g2, g3, g4⟩
  | pushBackB x =>
    obtain ⟨hxfl, hxsA, hxsB⟩ := hpre
    exact Inv_insert_genericB h sA sB x elsA elsB hrA hrB hnd hfl
      hxfl hxsA hxsB
  | spliceBA i =>
    have hgen := Inv_splice_generic h sA sB (elsA.take i) (elsA.drop i) elsB
      (by rw [List.take_append_drop]; exact hrA) hrB
      (by rw [List.take_append_drop]; exact hnd)
      (by rw [List.take_append_drop]; exact hfl)
    exact hgen

/-- The invariant is preserved along any operation sequence whose
preconditions hold. -/
theorem Inv_applyAll (st : TwoLists) (ops : List Op) (hInv : Inv st)
    (hpre : preAll st ops) : Inv (applyAll st ops) := by
  induction ops generalizing st with
  | nil => exact hInv
  | cons op ops ih =>
    exact ih (applyOp st op) (Inv_applyOp st op hInv hpre.1) hpre.2

/-- C4: after every finite sequence of push, pop, insert, erase and splice
operations whose preconditions hold, every node of each ring, the sentinel
included, satisfies the circular consistency equations (the prev of its
next is itself and the next of its prev is itself), and forward traversal
from begin yields exactly the element sequence while backward traversal
from end yields its reverse. -/
theorem C4_ring_roundtrip (st : TwoLists) (ops : List Op)
    (hInv : Inv st) (hpre : preAll st ops) :
    Inv (applyAll st ops) ∧
    (∀ x ∈ (applyAll st ops).sA :: (applyAll st ops).elsA,
      ((applyAll st ops).heap (((applyAll st ops).heap x).next)).prev = x ∧
      ((applyAll st ops).heap (((applyAll st ops).heap x).prev)).next = x) ∧
    (∀ x ∈ (applyAll st ops).sB :: (applyAll st ops).elsB,
      ((applyAll st ops).heap (((applyAll st ops).heap x).next)).prev = x ∧
      ((applyAll st ops).heap (((applyAll st ops).heap x).prev)).next = x) ∧
    ∀ fuel, (applyAll st ops).elsA.length ≤ fuel →
      travNext (applyAll st ops).heap (applyAll st ops).sA
        (beginIt (applyAll st ops).heap (applyAll st ops).sA) fuel =
        (applyAll st ops).elsA ∧
      travPrev (applyAll st ops).heap (applyAll st ops).sA
        (((applyAll st ops).heap (applyAll st ops).sA).prev) fuel =
        (applyAll st ops).elsA.reverse := by
  have hInvF := Inv_applyAll st ops hInv hpre
  obtain ⟨hrA, hrB, hnd, hfl⟩ := hInvF
  obtain ⟨hndA, hndB, -⟩ := nodup_two hnd
  have hwfA : WF (applyAll st ops).heap (applyAll st ops).sA
      (applyAll st ops).elsA :=
    ⟨hrA, hndA, fun x hx => hfl x (List.mem_append_left _ hx)⟩
  exact ⟨⟨hrA, hrB, hnd, hfl⟩,
    fun x hx => ring_consistency hrA x hx,
    fun x hx => ring_consistency hrB x hx,
    fun fuel hfuel => ⟨travNext_ring hwfA hfuel, travPrev_ring hwfA hfuel⟩⟩

/-- C4 witness: a concrete sequence of pushes to both lists, a splice, and
a pop keeps the invariant. -/
theorem C4_witness :
    Inv ⟨init_sentinel (init_sentinel blank 1) 2, 1, 2, [], []⟩ ∧
    preAll ⟨init_sentinel (init_sentinel blank 1) 2, 1, 2, [], []⟩
      [.pushBackA 3, .pushBackA 4, .pushBackB 5, .spliceBA 1, .popFrontA] ∧
    Inv (applyAll ⟨init_sentinel (init_sentinel blank 1) 2, 1, 2, [], []⟩
      [.pushBackA 3, .pushBackA 4, .pushBackB 5, .spliceBA 1, .popFrontA]) :=
  ⟨by decide, by decide,
    (C4_ring_roundtrip ⟨init_sentinel (init_sentinel blank 1) 2, 1, 2, [], []⟩
      [.pushBackA 3, .pushBackA 4, .pushBackB 5, .spliceBA 1, .popFrontA]
      (by decide) (by decide)).1⟩

end Intrusive
